import Mathlib

/-!
# Voxel world: coordinate mapping, mesh-extraction scheduling, floor queries

A shallow embedding of the coordinate helpers and queue operations declared in
`src/modules/voxelworld/WorldMgr.h` and `src/modules/voxel/World.h`.

`glm::ivec3` is a triple of machine `int`s; they are embedded as unbounded
integers and every theorem that depends on a range states it as a hypothesis.

`WorldMgr::chunkPos` and `WorldMgr::meshPos` compute in single precision
(`float`, IEEE-754 binary32, round to nearest, ties to even).  A finite binary32
value is embedded as a dyadic number `man * 2 ^ exp`; conversion from `int`,
division and multiplication are the exact result rounded to 24 significant
bits.  The binary32 exponent range (-126 .. 127) is not modelled: operands that
come from 32-bit integers and their quotients and products stay far inside it.
-/

/-- The `glm::ivec3` integer vector. -/
structure IVec3 where
  x : Int
  y : Int
  z : Int
  deriving DecidableEq

/-! ## Single precision arithmetic -/

/-- Number of binary digits of `n`, computed with `fuel` halving steps. -/
def bitLengthAux : Nat → Nat → Nat
  | 0, _ => 0
  | fuel + 1, n => if n = 0 then 0 else bitLengthAux fuel (n / 2) + 1

/-- Number of binary digits of `n` (`0` for `0`); `n` halving steps always suffice. -/
def bitLength (n : Nat) : Nat := bitLengthAux n n

/-- The quotient `n / d` (`d > 0`) rounded to the nearest integer, ties to even. -/
def roundHalfEven (n : Int) (d : Int) : Int :=
  let q := n / d
  let r := n % d
  if 2 * r < d then q
  else if d < 2 * r then q + 1
  else if q % 2 = 0 then q else q + 1

/-- A finite binary32 value `man * 2 ^ exp`. -/
structure Float32 where
  man : Int
  exp : Int
  deriving DecidableEq

namespace Float32

/-- The binary exponent `e` of the positive rational `n / d`: `2 ^ e ≤ n / d < 2 ^ (e + 1)`. -/
def exponent (n d : Nat) : Int :=
  let ln := bitLength n
  let ld := bitLength d
  if d * 2 ^ ln ≤ n * 2 ^ ld then (ln : Int) - ld else (ln : Int) - ld - 1

/-- The rational `n / d` (`d > 0`) rounded to 24 significant bits, ties to even.
The significand is `n / d` scaled by `2 ^ (23 - e)` and rounded to an integer. -/
def roundRatio (n : Int) (d : Int) : Float32 :=
  if n = 0 then ⟨0, 0⟩
  else
    let e := exponent n.natAbs d.natAbs
    if e ≤ 23 then ⟨roundHalfEven (n * 2 ^ (23 - e).toNat) d, e - 23⟩
    else ⟨roundHalfEven n (d * 2 ^ (e - 23).toNat), e - 23⟩

/-- The conversion `(float) n` of an `int`. -/
def ofInt (n : Int) : Float32 := roundRatio n 1

/-- Single precision division `a / b` for `b ≠ 0`: the exact quotient rounded.
The sign of the divisor is moved to the dividend. Division by zero (an IEEE
infinity or NaN) is outside the model; the divisors here are positive sizes. -/
def div (a b : Float32) : Float32 :=
  let r := roundRatio (a.man * b.man.sign) (b.man * b.man.sign)
  ⟨r.man, r.exp + (a.exp - b.exp)⟩

/-- Single precision multiplication `a * b`: the exact product rounded. -/
def mul (a b : Float32) : Float32 :=
  let r := roundRatio (a.man * b.man) 1
  ⟨r.man, r.exp + (a.exp + b.exp)⟩

/-- The function `glm::floor`: the largest integral value not above `a`. -/
def floor (a : Float32) : Float32 :=
  if 0 ≤ a.exp then ⟨a.man * 2 ^ a.exp.toNat, 0⟩
  else ⟨a.man / 2 ^ (-a.exp).toNat, 0⟩

/-- The conversion `(int) a`, which drops the fractional part (rounds toward zero). -/
def toInt (a : Float32) : Int :=
  if 0 ≤ a.exp then a.man * 2 ^ a.exp.toNat
  else Int.tdiv a.man (2 ^ (-a.exp).toNat)

end Float32

/-- The value of a binary32 number as a rational. -/
def Float32.val (a : Float32) : ℚ := a.man * (2 : ℚ) ^ a.exp

/-! ## Coordinate helpers of `WorldMgr` (`voxelworld/WorldMgr.h`) -/

namespace WorldMgr

/-- One axis of `WorldMgr::chunkPos`: `const int x = glm::floor(pos.x / size)` with
`const float size = chunkSize()`.  The `int` coordinate is converted to `float`, the
division is a `float` division, and the floored quotient is converted back to `int`. -/
def chunkAxis (chunkSize : Int) (c : Int) : Int :=
  let size := Float32.ofInt chunkSize
  Float32.toInt (Float32.floor (Float32.div (Float32.ofInt c) size))

/-- The method `WorldMgr::chunkPos`; `chunkSize` is the value of `chunkSize()`. -/
def chunkPos (chunkSize : Int) (pos : IVec3) : IVec3 :=
  ⟨chunkAxis chunkSize pos.x, chunkAxis chunkSize pos.y, chunkAxis chunkSize pos.z⟩

/-- One axis of `WorldMgr::meshPos`: `const int x = glm::floor(pos.x / size.x)` followed
by the component `x * size.x` of the returned `glm::ivec3`, where `size` is the
`glm::vec3` made from `meshSize()`.  The product is a `float` product (`int` times
`float`) that the `glm::ivec3` constructor converts to `int`. -/
def meshAxis (meshSize : Int) (c : Int) : Int :=
  let size := Float32.ofInt meshSize
  let x := Float32.toInt (Float32.floor (Float32.div (Float32.ofInt c) size))
  Float32.toInt (Float32.mul (Float32.ofInt x) size)

/-- The method `WorldMgr::meshPos`; `meshSize` is the value of `meshSize()`. -/
def meshPos (meshSize : IVec3) (pos : IVec3) : IVec3 :=
  ⟨meshAxis meshSize.x pos.x, meshAxis meshSize.y pos.y, meshAxis meshSize.z pos.z⟩

end WorldMgr

/-! ## Coordinate helpers and result queue of `World` (`voxel/World.h`) -/

namespace World

/-- The call `glm::floor(n)` on an `int` argument, as in `glm::floor(pos.x / size)` with
both operands of type `int`: the argument is already integral and comes back unchanged. -/
def glmFloorInt (n : Int) : Int := n

/-- One axis of `World::getChunkPos`: `const int x = glm::floor(pos.x / size)` with
`const int size = getChunkSize()`.  Both operands are `int`, so `/` is the C++ integer
division, which truncates toward zero. -/
def chunkAxis (size : Int) (c : Int) : Int :=
  glmFloorInt (Int.tdiv c size)

/-- The method `World::getChunkPos`; `size` is the value of `getChunkSize()`. -/
def getChunkPos (size : Int) (pos : IVec3) : IVec3 :=
  ⟨chunkAxis size pos.x, chunkAxis size pos.y, chunkAxis size pos.z⟩

/-- One axis of `World::getMeshPos`: `const int x = glm::floor(pos.x / size)` with
`const int size = getMeshSize()`, followed by the component `x * size`. -/
def meshAxis (size : Int) (c : Int) : Int :=
  glmFloorInt (Int.tdiv c size) * size

/-- The method `World::getMeshPos`; `size` is the value of `getMeshSize()`. -/
def getMeshPos (size : Int) (pos : IVec3) : IVec3 :=
  ⟨meshAxis size pos.x, meshAxis size pos.y, meshAxis size pos.z⟩

/-- The method `World::pop` on the mesh queue `_meshQueue` (a `std::deque`, front first).
Returns the return value, the caller's `item` after the call and the queue after the call. -/
def pop {α : Type} (item : α) (meshQueue : List α) : Bool × α × List α :=
  match meshQueue with
  | [] => (false, item, [])
  | front :: rest => (true, front, rest)

/-- Calls `World::pop` `n` times in a row on the same `item` variable.  Returns the return
value and the content of `item` after each call, in call order, and the final queue. -/
def popTimes {α : Type} : Nat → α → List α → List (Bool × α) × List α
  | 0, _, q => ([], q)
  | n + 1, item, q =>
    let r := pop item q
    let rest := popTimes n r.2.1 r.2.2
    ((r.1, r.2.1) :: rest.1, rest.2)

end World

/-! ## Mesh-extraction scheduling -/

/-- Modelled from the spec: the scheduler state behind `scheduleMeshExtraction` and
`allowReExtraction`, whose bodies (`WorldMgr.cpp`, `World.cpp`) are not part of the
sources.  The fields are the members declared in `WorldMgr.h`: the pending queue
`_pendingExtraction`, the dedup set `_positionsExtracted` and the result queue
`_extracted` (with results of type `α`). -/
structure Scheduler (α : Type) where
  pendingExtraction : List IVec3
  positionsExtracted : Finset IVec3
  extracted : List α

namespace Scheduler

/-- Modelled from the spec: `scheduleMeshExtraction(pos) -> bool`, missing from the
sources.  It "computes the tile coordinate for `pos`; if present in the dedup set,
returns false (no new work created); otherwise inserts it, pushes onto the pending
queue, returns true".  The tile coordinate is `tile pos`, with `tile` standing for
`WorldMgr::meshPos` (or `World::getMeshPos`). -/
def scheduleMeshExtraction {α : Type} (tile : IVec3 → IVec3) (pos : IVec3)
    (st : Scheduler α) : Bool × Scheduler α :=
  let t := tile pos
  if t ∈ st.positionsExtracted then (false, st)
  else
    (true, ⟨st.pendingExtraction ++ [t], insert t st.positionsExtracted, st.extracted⟩)

/-- Modelled from the spec: `allowReExtraction(pos) -> bool`, missing from the sources.
It "removes the tile from the dedup set; returns whether it had been present". -/
def allowReExtraction {α : Type} (tile : IVec3 → IVec3) (pos : IVec3)
    (st : Scheduler α) : Bool × Scheduler α :=
  let t := tile pos
  (decide (t ∈ st.positionsExtracted),
    ⟨st.pendingExtraction, st.positionsExtracted.erase t, st.extracted⟩)

end Scheduler

/-! ## Ray traversal and floor queries -/

/-- The part of `voxel::PagedVolume::Sampler` the callbacks read: the material of the
current voxel (`sampler.voxel().getMaterial()`) and its position (`sampler.position()`).
The material type `voxel::VoxelType` is a parameter. -/
structure Sampler (M : Type) where
  material : M
  position : IVec3

/-- The enumeration `voxel::RaycastResults::RaycastResult`. -/
inductive RaycastResult where
  | Completed
  | Interupted
  | Failed
  deriving DecidableEq

/-- Modelled from the spec: the grid traversal inside `voxel::raycastWithDirection`
(`voxel/Raycast.h` is not part of the sources): it invokes the callback on the visited
samples in order; "if the callback returns false, traversal stops and the function
reports `Interrupted`", otherwise it reports `Completed` when the samples are used up.
A C++ callback that writes to captured variables is a function from the captured state
`σ` and the sample to its return value and the new state.  The function is a template
over the volume; `S` is the sampler type of the volume. -/
def raycastTraverse {S σ : Type} (callback : σ → S → Bool × σ) :
    List S → σ → RaycastResult × σ
  | [], st => (RaycastResult.Completed, st)
  | s :: rest, st =>
    match callback st s with
    | (false, st1) => (RaycastResult.Interupted, st1)
    | (true, st1) => raycastTraverse callback rest st1

/-- Modelled from the spec: `voxel::raycastWithDirection`, missing from the sources.
The argument `ray` stands for the volume, the start and the direction: `none` is an
invalid ray ("reports `Failed`", no traversal performed), `some samples` is a valid ray
that visits `samples` in this order. -/
def raycastWithDirection {S σ : Type} (ray : Option (List S))
    (callback : σ → S → Bool × σ) (st : σ) : RaycastResult × σ :=
  match ray with
  | none => (RaycastResult.Failed, st)
  | some samples => raycastTraverse callback samples st

namespace WorldMgr

/-- The callback overload of `WorldMgr::raycast`:
`return result == voxel::RaycastResults::Interupted`. -/
def raycast {M σ : Type} (ray : Option (List (Sampler M)))
    (callback : σ → Sampler M → Bool × σ) (st : σ) : Bool × σ :=
  let r := raycastWithDirection ray callback st
  (decide (r.1 = RaycastResult.Interupted), r.2)

/-- The lambda passed to `raycast` by `WorldMgr::findFloor`; the captured variable is `y`. -/
def findFloorCallback {M : Type} (check : M → Bool) (y : Int) (sampler : Sampler M) :
    Bool × Int :=
  if check sampler.material then (false, sampler.position.y) else (true, y)

/-- The method `WorldMgr::findFloor`.  `NO_FLOOR_FOUND` is the constant of
`voxel/Constants.h` (not part of the sources); `rayDown x z` is the ray cast from
`(x, voxel::MAX_HEIGHT, z)` straight down over the distance `voxel::MAX_HEIGHT`. -/
def findFloor {M : Type} (NO_FLOOR_FOUND : Int) (rayDown : Int → Int → Option (List (Sampler M)))
    (x z : Int) (check : M → Bool) : Int :=
  let y := NO_FLOOR_FOUND
  (raycast (rayDown x z) (findFloorCallback check) y).2

end WorldMgr

/-! ## Voxel picking in the editor (`voxedit-util/SceneManager.cpp`) -/

/-- The enumeration `voxel::FaceNames`, with the values that `SceneManager::trace` uses. -/
inductive FaceNames where
  | NegativeX
  | PositiveX
  | NegativeY
  | PositiveY
  | NegativeZ
  | PositiveZ
  | NoOfFaces
  deriving DecidableEq

/-- The part of `voxel::RawVolume::Sampler` that the callback of `SceneManager::trace`
reads: `sampler.voxel()`, `sampler.position()` and `sampler.currentPositionValid()`. -/
structure RawSampler (V : Type) where
  voxel : V
  position : IVec3
  currentPositionValid : Bool

/-- The members of `_result` (a `voxel::PickResult`) that `SceneManager::trace` writes.
The member `direction`, a copy of the ray direction, is left out. -/
structure PickResult where
  didHit : Bool
  validPreviousPosition : Bool
  hitVoxel : IVec3
  previousPosition : IVec3
  hitFace : FaceNames
  deriving DecidableEq

/-- The flag set `_lockedAxis` of type `math::Axis`: the field `x` is the test
`(_lockedAxis & math::Axis::X) != math::Axis::None`, likewise `y` and `z`. -/
structure LockedAxis where
  x : Bool
  y : Bool
  z : Bool
  deriving DecidableEq

namespace SceneManager

/-- The test `_lockedAxis != math::Axis::None`. -/
def lockedAny (a : LockedAxis) : Bool := a.x || a.y || a.z

/-- The `if` chain of `SceneManager::trace` that sets `_result.hitFace` from
`dir = glm::ivec3(ray.origin) - _result.hitVoxel`; `old` is the value of `hitFace`
before the chain, which stays when no branch is taken. -/
def hitFace (dir : IVec3) (old : FaceNames) : FaceNames :=
  if dir.x < 0 then FaceNames.NegativeX
  else if dir.x > 0 then FaceNames.PositiveX
  else if dir.y < 0 then FaceNames.NegativeY
  else if dir.y > 0 then FaceNames.PositiveY
  else if dir.z < 0 then FaceNames.NegativeZ
  else if dir.z > 0 then FaceNames.PositiveZ
  else old

/-- The lambda that `SceneManager::trace` passes to `raycastWithDirection`.  The captured
state is `_result`; `origin` is `glm::ivec3(ray.origin)`, `cursorPos` is
`cursorPosition()` and `air` is the default constructed voxel. -/
def traceCallback {V : Type} [DecidableEq V] (air : V) (origin : IVec3)
    (lockedAxis : LockedAxis) (cursorPos : IVec3) (result : PickResult)
    (sampler : RawSampler V) : Bool × PickResult :=
  if sampler.voxel ≠ air then
    let hitVoxel := sampler.position
    let dir : IVec3 := ⟨origin.x - hitVoxel.x, origin.y - hitVoxel.y, origin.z - hitVoxel.z⟩
    (false, ⟨true, result.validPreviousPosition, hitVoxel, result.previousPosition,
      hitFace dir result.hitFace⟩)
  else if sampler.currentPositionValid then
    if lockedAny lockedAxis ∧ lockedAxis.x ∧ sampler.position.x = cursorPos.x then
      (false, result)
    else if lockedAny lockedAxis ∧ lockedAxis.y ∧ sampler.position.y = cursorPos.y then
      (false, result)
    else if lockedAny lockedAxis ∧ lockedAxis.z ∧ sampler.position.z = cursorPos.z then
      (false, result)
    else
      (true, ⟨result.didHit, true, result.hitVoxel, sampler.position, result.hitFace⟩)
  else
    (true, result)

/-- The ray cast of `SceneManager::trace`: the statements from `_result.didHit = false`
to the end of the `raycastWithDirection` call.  The argument `result` is `_result` as the
previous trace left it (`hitVoxel` and `previousPosition` are not reset).  Returns the
result of the traversal and the new `_result`. -/
def traceRay {V : Type} [DecidableEq V] (air : V) (ray : Option (List (RawSampler V)))
    (origin : IVec3) (lockedAxis : LockedAxis) (cursorPos : IVec3) (result : PickResult) :
    RaycastResult × PickResult :=
  let start : PickResult :=
    ⟨false, false, result.hitVoxel, result.previousPosition, FaceNames.NoOfFaces⟩
  raycastWithDirection ray (traceCallback air origin lockedAxis cursorPos) start

end SceneManager

namespace SceneManager

/-- An entry of the queue `_extractRegions`: the layer and the region to extract.  The
class `voxel::Region` is a parameter `R`. -/
structure ExtractRegion (R : Type) where
  layer : Int
  region : R
  deriving DecidableEq

/-- One call `_volumeRenderer.extract(layer, region, updateBuffers)`. -/
structure ExtractCall (R : Type) where
  layer : Int
  region : R
  updateBuffers : Bool
  deriving DecidableEq

/-- The test `glm::all(glm::greaterThan(dims, glm::ivec3(64)))`. -/
def bigRegion (dims : IVec3) : Bool :=
  decide (dims.x > 64) && decide (dims.y > 64) && decide (dims.z > 64)

/-- The `for` loop of `SceneManager::extractVolume`, entered with the loop variable `i`,
the variable `lastLayer` and the queue entries from index `i` on.  `x` is
`core_min(MaxPerFrame, n)` and `dims` is `Region::getDimensionsInVoxels`.  Returns the
calls of `_volumeRenderer.extract` in order and the value of `i` after the loop.  The loop
condition is `i < x`; as `x` is at most the queue length, entries are left while it holds. -/
def extractLoop {R : Type} (dims : R → IVec3) (x : Nat) :
    Nat → Int → List (ExtractRegion R) → List (ExtractCall R) × Nat
  | i, _, [] => ([], i)
  | i, lastLayer, entry :: rest =>
    if i < x then
      let big := bigRegion (dims entry.region)
      let updateBuffers := big || decide (i = x - 1) || decide (lastLayer ≠ entry.layer)
      if big then
        ([⟨entry.layer, entry.region, updateBuffers⟩], i + 1)
      else
        let next := extractLoop dims x (i + 1) entry.layer rest
        (⟨entry.layer, entry.region, updateBuffers⟩ :: next.1, next.2)
    else ([], i)

/-- The method `SceneManager::extractVolume`.  Returns the return value, the calls of
`_volumeRenderer.extract` in order and the queue `_extractRegions` after the call. -/
def extractVolume {R : Type} (dims : R → IVec3) (extractRegions : List (ExtractRegion R)) :
    Bool × List (ExtractCall R) × List (ExtractRegion R) :=
  let n := extractRegions.length
  if n > 0 then
    let MaxPerFrame := 4
    let x := min MaxPerFrame n
    let loop := extractLoop dims x 0 (-1) extractRegions
    (true, loop.1, extractRegions.drop loop.2)
  else
    (false, [], extractRegions)

/-- The call `noise(octaves, lacunarity, frequency, gain, type)` made by the command;
`type` is always `NoiseType::ridgedMF`. -/
structure NoiseCall (F : Type) where
  octaves : Int
  lacunarity : F
  frequency : F
  gain : F
  deriving DecidableEq

/-- The `noise` command registered in `SceneManager::construct`.  The parsers
`core::string::toInt` and `core::string::toFloat` are parameters.  Returns the call of
`SceneManager::noise` that is made, or `none` when the command only prints its usage. -/
def noiseCommand {F : Type} (toInt : String → Int) (toFloat : String → F)
    (args : List String) : Option (NoiseCall F) :=
  let argc := args.length
  if argc ≠ 4 then none
  else
    let octaves := toInt (args.getD 0 "")
    let lacunarity := toFloat (args.getD 0 "")
    let frequency := toFloat (args.getD 0 "")
    let gain := toFloat (args.getD 0 "")
    some ⟨octaves, lacunarity, frequency, gain⟩

end SceneManager

/-! ## Event manager (`eventmgr/EventMgr.cpp`) -/

namespace EventMgr

/-- A running event as one call `EventMgr::update(dt)` sees it: its id and the value that
its `update(dt)` returns. -/
structure Event where
  id : Nat
  updateResult : Bool
  deriving DecidableEq

/-- What one call `EventMgr::update(dt)` did: the ids of the events whose `update(dt)` was
called and of the events that were stopped, in call order, and `_events` after the call. -/
structure UpdateLog where
  updated : List Nat
  stopped : List Nat
  events : List Event
  deriving DecidableEq

/-- The loop of `EventMgr::update` from the iterator `i` on; the argument lists the
entries of `_events` from `i` to the end, in iteration order.  When `update(dt)` returns
false the event is stopped and erased, `i = _events.erase(i)` points to the entry after
it, and the `++i` of the `for` statement steps over that entry.  If the erased entry was
the last one, `++i` increments the end iterator, which is undefined: the result is `none`. -/
def updateLoop : List Event → Option UpdateLog
  | [] => some ⟨[], [], []⟩
  | [e] =>
    if e.updateResult then some ⟨[e.id], [], [e]⟩
    else none
  | e :: skipped :: rest =>
    if e.updateResult then
      (updateLoop (skipped :: rest)).map
        (fun log => ⟨e.id :: log.updated, log.stopped, e :: log.events⟩)
    else
      (updateLoop rest).map
        (fun log => ⟨e.id :: log.updated, e.id :: log.stopped, skipped :: log.events⟩)

/-- The method `EventMgr::update`; `events` is `_events` in iteration order. -/
def update (events : List Event) : Option UpdateLog := updateLoop events

end EventMgr

/-! ## Application state machine (`core/App.cpp`) -/

/-- The enumeration `core::AppState`, with the values that `App.cpp` names. -/
inductive AppState where
  | Construct
  | Init
  | InitFailure
  | Running
  | Cleanup
  | Destroy
  | Blocked
  | InvalidAppState
  deriving DecidableEq

/-- The virtual methods that `App::onFrame` calls. -/
inductive Callback where
  | onConstruct
  | onBeforeInit
  | onInit
  | onAfterInit
  | onBeforeRunning
  | onRunning
  | onAfterRunning
  | onCleanup
  | onDestroy
  | onAfterFrame
  deriving DecidableEq

/-- The members of `App` that the state machine of `App::onFrame` reads and writes:
`_curState`, `_nextState`, `_blockers` and `_exitCode`. -/
structure App where
  curState : AppState
  nextState : AppState
  blockers : AppState → Bool
  exitCode : Int

namespace App

/-- The method `App::addBlocker`: `_blockers[(int)blockedState] = true`. -/
def addBlocker (blockedState : AppState) (app : App) : App :=
  ⟨app.curState, app.nextState,
    fun s => if s = blockedState then true else app.blockers s, app.exitCode⟩

/-- The method `App::remBlocker`: `_blockers[(int)blockedState] = false`. -/
def remBlocker (blockedState : AppState) (app : App) : App :=
  ⟨app.curState, app.nextState,
    fun s => if s = blockedState then false else app.blockers s, app.exitCode⟩

/-- The first statement of `App::onFrame`: the switch to the pending next state, or to
`AppState::Blocked` while a blocker is registered for it. -/
def applyNextState (app : App) : App :=
  if app.nextState ≠ AppState.InvalidAppState ∧ app.nextState ≠ app.curState then
    if app.blockers app.nextState then
      if AppState.Blocked ≠ app.curState then
        ⟨AppState.Blocked, app.nextState, app.blockers, app.exitCode⟩
      else app
    else
      ⟨app.nextState, AppState.InvalidAppState, app.blockers, app.exitCode⟩
  else app

/-- The second statement of `App::onFrame`: the `Blocked` branch, which only sleeps, or
the `switch` over `_curState`.  A virtual method is a function `run c` from the members
before the call to its return value (unused for the `void` methods) and the members after
the call.  Returns the members after the statement and the methods called, in order.  The
time members (`_now`, `_deltaFrameMillis`, `_nextFrameMillis`) and the sleeps are left
out. -/
def runState (run : Callback → App → AppState × App) (app : App) : App × List Callback :=
  if AppState.Blocked = app.curState then (app, [])
  else
    match app.curState with
    | AppState.Construct =>
      let r := run Callback.onConstruct app
      (⟨r.2.curState, r.1, r.2.blockers, r.2.exitCode⟩, [Callback.onConstruct])
    | AppState.Init =>
      let a1 := (run Callback.onBeforeInit app).2
      let r := run Callback.onInit a1
      let a2 : App := ⟨r.2.curState, r.1, r.2.blockers, r.2.exitCode⟩
      let a3 := (run Callback.onAfterInit a2).2
      (a3, [Callback.onBeforeInit, Callback.onInit, Callback.onAfterInit])
    | AppState.InitFailure =>
      let a1 : App := ⟨app.curState, app.nextState, app.blockers, 1⟩
      let r := run Callback.onCleanup a1
      (⟨r.2.curState, r.1, r.2.blockers, r.2.exitCode⟩, [Callback.onCleanup])
    | AppState.Running =>
      let a1 := (run Callback.onBeforeRunning app).2
      let r := run Callback.onRunning a1
      let a2 : App :=
        if r.2.nextState ≠ AppState.Cleanup ∧ r.2.nextState ≠ AppState.Destroy then
          ⟨r.2.curState, r.1, r.2.blockers, r.2.exitCode⟩
        else r.2
      if AppState.Running = a2.nextState then
        ((run Callback.onAfterRunning a2).2,
          [Callback.onBeforeRunning, Callback.onRunning, Callback.onAfterRunning])
      else
        (a2, [Callback.onBeforeRunning, Callback.onRunning])
    | AppState.Cleanup =>
      let r := run Callback.onCleanup app
      (⟨r.2.curState, r.1, r.2.blockers, r.2.exitCode⟩, [Callback.onCleanup])
    | AppState.Destroy =>
      let r := run Callback.onDestroy app
      (⟨AppState.InvalidAppState, r.1, r.2.blockers, r.2.exitCode⟩, [Callback.onDestroy])
    | _ => (app, [])

/-- The method `App::onFrame`: the state switch, the current state and `onAfterFrame`. -/
def onFrame (run : Callback → App → AppState × App) (app : App) : App × List Callback :=
  let r := runState run (applyNextState app)
  ((run Callback.onAfterFrame r.1).2, r.2 ++ [Callback.onAfterFrame])

/-- Runs `App::onFrame` `n` times in a row; returns the methods called in all frames. -/
def frames (run : Callback → App → AppState × App) : Nat → App → App × List Callback
  | 0, app => (app, [])
  | n + 1, app =>
    let r := onFrame run app
    let rest := frames run n r.1
    (rest.1, r.2 ++ rest.2)

/-- The lifecycle method that the `switch` of `App::onFrame` calls for a state. -/
def lifecycleCallback : AppState → Option Callback
  | AppState.Construct => some Callback.onConstruct
  | AppState.Init => some Callback.onInit
  | AppState.InitFailure => some Callback.onCleanup
  | AppState.Running => some Callback.onRunning
  | AppState.Cleanup => some Callback.onCleanup
  | AppState.Destroy => some Callback.onDestroy
  | _ => none

end App

/-! ## Paged volume residency (modelled from the spec) -/

/-- Modelled from the spec: the calls that `PagedVolume` makes to its `Pager`
(`voxel/PagedVolume.h` is not part of the sources; `World::Pager` in `World.h` declares
`pageIn` and `pageOut`). -/
inductive PagerEvent where
  | pageIn (chunk : IVec3)
  | pageOut (chunk : IVec3)
  deriving DecidableEq

/-- Modelled from the spec: the residency state of `PagedVolume`, which is missing from
the sources: the configured budget (the largest number of resident chunks), the recency
counter, the resident chunks by chunk coordinate with the time stamp of their last
access, and the single-slot "last accessed chunk" cache.  The voxel data of the chunks
is left out. -/
structure PagedVolume where
  budget : Nat
  timestamper : Nat
  resident : List (IVec3 × Nat)
  lastAccessed : Option IVec3

namespace PagedVolume

/-- Modelled from the spec: a volume right after construction, with no resident chunk. -/
def empty (budget : Nat) : PagedVolume := ⟨budget, 0, [], none⟩

/-- Modelled from the spec: "eviction policy: strict least-recently-used by access
timestamp": the resident chunk with the smallest time stamp. -/
def leastRecentlyUsed : List (IVec3 × Nat) → Option (IVec3 × Nat)
  | [] => none
  | e :: rest =>
    match leastRecentlyUsed rest with
    | none => some e
    | some m => if e.2 ≤ m.2 then some e else some m

/-- Whether the chunk with coordinate `c` is resident. -/
def isResident (c : IVec3) (v : PagedVolume) : Bool :=
  v.resident.any (fun e => decide (e.1 = c))

/-- Gives the resident chunk `c` the time stamp `stamp`. -/
def touch (c : IVec3) (stamp : Nat) (resident : List (IVec3 × Nat)) : List (IVec3 × Nat) :=
  resident.map (fun e => if e.1 = c then (c, stamp) else e)

/-- Modelled from the spec: the chunk lookup behind `voxelAt` and `setVoxel`.  An access to
the chunk in the single-slot cache "bypasses the resident-set lookup".  Otherwise a
resident chunk gets a new time stamp; an absent chunk is paged in and inserted,
"evicting the least-recently-used chunk first if at capacity", and "eviction triggers
`pageOut(chunk)`".  Returns the new state and the pager calls in order. -/
def getChunk (c : IVec3) (v : PagedVolume) : PagedVolume × List PagerEvent :=
  if v.lastAccessed = some c then (v, [])
  else if isResident c v then
    (⟨v.budget, v.timestamper + 1, touch c (v.timestamper + 1) v.resident, some c⟩, [])
  else if v.budget ≤ v.resident.length then
    match leastRecentlyUsed v.resident with
    | some m =>
      (⟨v.budget, v.timestamper + 1, (c, v.timestamper + 1) :: v.resident.erase m, some c⟩,
        [PagerEvent.pageOut m.1, PagerEvent.pageIn c])
    | none =>
      (⟨v.budget, v.timestamper + 1, (c, v.timestamper + 1) :: v.resident, some c⟩,
        [PagerEvent.pageIn c])
  else
    (⟨v.budget, v.timestamper + 1, (c, v.timestamper + 1) :: v.resident, some c⟩,
      [PagerEvent.pageIn c])

/-- An access to the volume: `voxelAt(x, y, z)` or `setVoxel(x, y, z, v)` at a position.
Both resolve the position to a chunk coordinate and look the chunk up. -/
inductive Access where
  | voxelAt (pos : IVec3)
  | setVoxel (pos : IVec3)
  deriving DecidableEq

/-- The position of an access. -/
def Access.pos : Access → IVec3
  | Access.voxelAt p => p
  | Access.setVoxel p => p

/-- Modelled from the spec: one access; `chunkOf` resolves a position to its chunk
coordinate. -/
def step (chunkOf : IVec3 → IVec3) (a : Access) (v : PagedVolume) :
    PagedVolume × List PagerEvent :=
  getChunk (chunkOf a.pos) v

/-- The state after a sequence of accesses, first access first. -/
def run (chunkOf : IVec3 → IVec3) : List Access → PagedVolume → PagedVolume
  | [], v => v
  | a :: rest, v => run chunkOf rest (step chunkOf a v).1

/-- The chunk coordinates accessed by a sequence of accesses, last access first. -/
def history (chunkOf : IVec3 → IVec3) (accesses : List Access) : List IVec3 :=
  (accesses.map (fun a => chunkOf a.pos)).reverse

/-- The number of accesses since the last access to chunk `c` in a history that lists the
last access first (the length of the history if `c` was never accessed). -/
def accessAge (c : IVec3) : List IVec3 → Nat
  | [] => 0
  | d :: rest => if d = c then 0 else accessAge c rest + 1

/-- The residency invariant with respect to the history of accesses (last access first):
no chunk is resident twice, every resident chunk was accessed, a later time stamp means
a more recent last access, no time stamp is ahead of the counter, the cache slot holds
the chunk accessed last, which is resident, and the resident chunks fit the positive
budget. -/
def Inv (v : PagedVolume) (hist : List IVec3) : Prop :=
  (v.resident.map Prod.fst).Nodup ∧
  (∀ e ∈ v.resident, e.1 ∈ hist) ∧
  (∀ e ∈ v.resident, ∀ f ∈ v.resident,
    (e.2 < f.2 ↔ accessAge f.1 hist < accessAge e.1 hist)) ∧
  (∀ e ∈ v.resident, e.2 ≤ v.timestamper) ∧
  v.lastAccessed = hist.head? ∧
  (∀ c, v.lastAccessed = some c → c ∈ v.resident.map Prod.fst) ∧
  v.resident.length ≤ v.budget ∧
  0 < v.budget

end PagedVolume

/-! ## Command line arguments (`core/App.cpp`) and the compute shader tool
(`computeshadertool/ComputeShaderTool.cpp`) -/

/-- What `App::getArgVal` reads of a registered `App::Argument`: `longArg()`,
`shortArg()`, `defaultValue()` and `mandatory()`. -/
structure Argument where
  longArg : String
  shortArg : String
  defaultValue : String
  mandatory : Bool
  deriving DecidableEq

/-- What a call of `App::getArgVal` yields: the returned string, the value of `*argi`
after the call (the index passed in when `argi` is a null pointer) and whether the
call ran `usage()` and `requestQuit()`. -/
structure ArgVal where
  value : String
  argi : Nat
  quitRequested : Bool
  deriving DecidableEq

namespace App

/-- The search loop of `App::getArgVal`, entered with the loop variable `i` and the
elements of `_argv` from index `i` on:
`for (; i < _argc; ++i) { if (no match with _argv[i]) continue;
if (i + 1 < _argc) { *argi = i + 1; return _argv[i + 1]; } }`.
Returns the new `*argi` and the returned value, or `none` when the loop runs to its end. -/
def findArgFrom (isArg : String → Bool) : Nat → List String → Option (Nat × String)
  | i, a :: b :: rest =>
    if isArg a then some (i + 1, b) else findArgFrom isArg (i + 1) (b :: rest)
  | _, _ => none

/-- The search loop of `App::getArgVal` over `_argv` from the index `start`. -/
def findArgVal (isArg : String → Bool) (argv : List String) (start : Nat) :
    Option (Nat × String) :=
  findArgFrom isArg start (argv.drop start)

/-- The method `App::getArgVal(arg, defaultVal, argi)`; `arguments` is `_arguments`, `argv`
is `_argv` (so `_argc` is its length) and `argi` is `none` for a null pointer. -/
def getArgVal (arguments : List Argument) (argv : List String) (arg defaultVal : String)
    (argi : Option Nat) : ArgVal :=
  let start := match argi with
    | none => 1
    | some i => max 1 i
  let old := argi.getD 0
  match findArgVal (fun s => decide (arg = s)) argv start with
  | some (i, v) => ⟨v, if argi.isSome then i else old, false⟩
  | none =>
    if defaultVal ≠ "" then ⟨defaultVal, old, false⟩
    else
      match arguments.find? (fun a => decide (a.longArg = arg) || decide (a.shortArg = arg)) with
      | none => ⟨"", old, false⟩
      | some a =>
        match findArgVal (fun s => decide (a.longArg = s) || decide (a.shortArg = s))
            argv start with
        | some (i, v) => ⟨v, if argi.isSome then i else old, false⟩
        | none =>
          if !a.mandatory then ⟨a.defaultValue, old, false⟩
          else if a.defaultValue = "" then ⟨a.defaultValue, old, true⟩
          else ⟨a.defaultValue, old, false⟩

end App

namespace ComputeShaderTool

/-- The arguments registered by `ComputeShaderTool::onConstruct`, followed by the
`--loglevel` argument of `App::onConstruct`, in registration order.  An argument
registered without `setShort`, `setDefaultValue` or `setMandatory` has an empty short
name, an empty default value and is not mandatory (the class `App::Argument` of `App.h`
is not part of the sources). -/
def registeredArgs : List Argument :=
  [⟨"--shader", "-s", "", true⟩,
    ⟨"--shadertemplate", "-t", "", true⟩,
    ⟨"--namespace", "-n", "compute", false⟩,
    ⟨"--shaderdir", "-d", "shaders/", false⟩,
    ⟨"--sourcedir", "", "", true⟩,
    ⟨"-I", "", "", false⟩,
    ⟨"--loglevel", "-l", "", false⟩]

/-- The loop `for (;;)` of `ComputeShaderTool::onRunning` that collects the include
directories, entered with the variable `index` and the list `_includeDirs`.  Every
iteration uses one unit of `fuel`; the result is `none` when the fuel runs out. -/
def includeLoop (arguments : List Argument) (argv : List String) :
    Nat → Nat → List String → Option (List String)
  | 0, _, _ => none
  | fuel + 1, index, includeDirs =>
    let dir := App.getArgVal arguments argv "-I" "" (some index)
    if dir.value = "" then some includeDirs
    else includeLoop arguments argv fuel dir.argi (includeDirs ++ [dir.value])

/-- The include directory part of `ComputeShaderTool::onRunning`:
`_includeDirs.push_back(".")`, `int index = 0` and the loop; `_includeDirs` is empty
before.  Returns `_includeDirs` after the loop. -/
def includeDirs (arguments : List Argument) (argv : List String) (fuel : Nat) :
    Option (List String) :=
  includeLoop arguments argv fuel 0 ["."]

/-- The value after each `-I` occurrence of a list of command line elements, in order. -/
def valuesAfterI : List String → List String
  | a :: b :: rest =>
    if a = "-I" then b :: valuesAfterI (b :: rest) else valuesAfterI (b :: rest)
  | _ => []

/-- The `while` loop of `ComputeShaderTool::getSource`, entered with `src`, `level`,
`success` and the sources passed to `util::handleIncludes` so far.  The functions
`util::handleIncludes(·, _includeDirs)` and `core::string::contains(·, "#include")` are
parameters.  Every evaluation of the loop condition uses one unit of `fuel`; the result
is `none` when the fuel runs out. -/
def sourceLoop {S : Type} (handleIncludes : S → S × Bool) (containsInclude : S → Bool) :
    Nat → S → Nat → Bool → List S → Option (S × Bool × List S)
  | 0, _, _, _, _ => none
  | fuel + 1, src, level, success, calls =>
    if containsInclude src then
      let ret := handleIncludes src
      if level + 1 ≥ 10 then
        some (ret.1, success && ret.2, calls ++ [src])
      else
        sourceLoop handleIncludes containsInclude fuel ret.1 (level + 1) (success && ret.2)
          (calls ++ [src])
    else
      some (src, success, calls)

/-- The method `ComputeShaderTool::getSource`; `loaded` is `fs->load(file)`.  Returns the
source, the success flag and the sources passed to `util::handleIncludes`, in call
order. -/
def getSource {S : Type} (handleIncludes : S → S × Bool) (containsInclude : S → Bool)
    (fuel : Nat) (loaded : S) : Option (S × Bool × List S) :=
  let retIncludes := handleIncludes loaded
  sourceLoop handleIncludes containsInclude fuel retIncludes.1 0 retIncludes.2 [loaded]

end ComputeShaderTool

/-! ## Lemmas on single precision rounding -/

theorem bitLengthAux_zero (fuel : Nat) : bitLengthAux fuel 0 = 0 := by
  cases fuel <;> simp [bitLengthAux]

theorem bitLengthAux_bounds (fuel : Nat) :
    ∀ n : Nat, n ≤ fuel →
      n < 2 ^ bitLengthAux fuel n ∧ (n ≠ 0 → 2 ^ bitLengthAux fuel n ≤ 2 * n) := by
  induction fuel with
  | zero =>
    intro n hn
    have h0 : n = 0 := by omega
    subst h0
    simp [bitLengthAux]
  | succ fuel ih =>
    intro n hn
    by_cases h0 : n = 0
    · subst h0
      simp [bitLengthAux]
    · have hstep : bitLengthAux (fuel + 1) n = bitLengthAux fuel (n / 2) + 1 := by
        simp [bitLengthAux, h0]
      obtain ⟨hlt, hge⟩ := ih (n / 2) (by omega)
      rw [hstep, pow_succ]
      refine ⟨by omega, fun _ => ?_⟩
      by_cases h2 : n / 2 = 0
      · rw [h2, bitLengthAux_zero]
        omega
      · have := hge h2
        omega

theorem lt_two_pow_bitLength (n : Nat) : n < 2 ^ bitLength n :=
  (bitLengthAux_bounds n n le_rfl).1

theorem two_pow_bitLength_le (n : Nat) (h : n ≠ 0) : 2 ^ bitLength n ≤ 2 * n :=
  (bitLengthAux_bounds n n le_rfl).2 h

/-- Integer form of `2 ^ e ≤ n / d` for `e = exponent n d`. -/
theorem exponent_le_nat (n d : Nat) (hn : n ≠ 0) :
    d * 2 ^ (Float32.exponent n d).toNat ≤ n * 2 ^ (-(Float32.exponent n d)).toNat := by
  have hn2 := two_pow_bitLength_le n hn
  have hd1 := lt_two_pow_bitLength d
  unfold Float32.exponent
  simp only
  generalize bitLength n = a at *
  generalize bitLength d = b at *
  have key : ∀ (x y : Nat), d * 2 ^ x ≤ n * 2 ^ y →
      d * 2 ^ ((x : Int) - y).toNat ≤ n * 2 ^ (-((x : Int) - y)).toNat := by
    intro x y h
    rcases le_total y x with hyx | hxy
    · have e1 : ((x : Int) - y).toNat = x - y := by omega
      have e2 : (-((x : Int) - y)).toNat = 0 := by omega
      rw [e1, e2, pow_zero, mul_one]
      have hx : x = (x - y) + y := by omega
      rw [hx, pow_add, ← mul_assoc] at h
      exact Nat.le_of_mul_le_mul_right h (by positivity)
    · have e1 : ((x : Int) - y).toNat = 0 := by omega
      have e2 : (-((x : Int) - y)).toNat = y - x := by omega
      rw [e1, e2, pow_zero, mul_one]
      have hy : y = (y - x) + x := by omega
      rw [hy, pow_add, ← mul_assoc] at h
      exact Nat.le_of_mul_le_mul_right h (by positivity)
  split_ifs with h
  · exact key a b h
  · have h' : d * 2 ^ a ≤ n * 2 ^ (b + 1) := by
      rw [pow_succ]
      calc d * 2 ^ a ≤ d * (2 * n) := Nat.mul_le_mul_left _ hn2
        _ ≤ 2 ^ b * (2 * n) := Nat.mul_le_mul_right _ hd1.le
        _ = n * (2 ^ b * 2) := by ring
    have := key a (b + 1) h'
    have e : ((a : Int) - b - 1) = ((a : Int) - ((b + 1 : Nat) : Int)) := by push_cast; ring
    rw [e]
    exact this

theorem roundHalfEven_int_bound (N D : Int) (hD : 0 < D) :
    |2 * (roundHalfEven N D * D - N)| ≤ D := by
  have h1 := Int.emod_add_ediv N D
  have h2 := Int.emod_nonneg N hD.ne.symm
  have h3 := Int.emod_lt_of_pos N hD
  have hmul : D * (N / D) = N / D * D := mul_comm _ _
  unfold roundHalfEven
  simp only
  rw [abs_le]
  split_ifs with c1 c2 c3
  · constructor <;> nlinarith
  · constructor <;> nlinarith
  · constructor <;> nlinarith
  · constructor <;> nlinarith

theorem roundHalfEven_rat_bound (N D : Int) (hD : 0 < D) :
    |((roundHalfEven N D : Int) : ℚ) - (N : ℚ) / D| ≤ 1 / 2 := by
  have h := roundHalfEven_int_bound N D hD
  have hDq : (0 : ℚ) < D := by exact_mod_cast hD
  have hq : |(2 : ℚ) * ((roundHalfEven N D : ℚ) * D - N)| ≤ D := by exact_mod_cast h
  have e : ((roundHalfEven N D : Int) : ℚ) - (N : ℚ) / D
      = (2 * ((roundHalfEven N D : ℚ) * D - N)) / (2 * D) := by
    field_simp
    ring
  rw [e, abs_div, abs_of_pos (by positivity : (0 : ℚ) < 2 * D), div_le_iff₀ (by positivity)]
  linarith

theorem two_zpow_eq (e : Int) :
    (2 : ℚ) ^ e = (2 : ℚ) ^ e.toNat / (2 : ℚ) ^ (-e).toNat := by
  have h : e = (e.toNat : Int) - ((-e).toNat : Int) := (Int.toNat_sub_toNat_neg e).symm
  conv_lhs => rw [h]
  rw [zpow_sub₀ (by norm_num), zpow_natCast, zpow_natCast]

theorem exponent_le_rat (n d : Int) (hn : n ≠ 0) (hd : 0 < d) :
    (2 : ℚ) ^ Float32.exponent n.natAbs d.natAbs ≤ |(n : ℚ) / d| := by
  have h := exponent_le_nat n.natAbs d.natAbs (by simpa using hn)
  have hq : ((d.natAbs : ℚ)) * 2 ^ (Float32.exponent n.natAbs d.natAbs).toNat
      ≤ (n.natAbs : ℚ) * 2 ^ (-(Float32.exponent n.natAbs d.natAbs)).toNat := by
    exact_mod_cast h
  have hdq : (0 : ℚ) < d := by exact_mod_cast hd
  have e1 : ((d.natAbs : ℚ)) = d := by
    rw [Nat.cast_natAbs, abs_of_pos hd]
  have e2 : ((n.natAbs : ℚ)) = |(n : ℚ)| := by
    rw [Nat.cast_natAbs, Int.cast_abs]
  rw [e1, e2] at hq
  rw [two_zpow_eq, abs_div, abs_of_pos hdq, div_le_div_iff₀ (by positivity) hdq]
  linarith

/-- The rounded quotient: its exponent is that of `n / d` and its significand is
within one half of the scaled quotient. -/
theorem roundRatio_spec (n d : Int) (hn : n ≠ 0) (hd : 0 < d) :
    ∃ e : Int, (Float32.roundRatio n d).exp = e - 23 ∧ (2 : ℚ) ^ e ≤ |(n : ℚ) / d| ∧
      |((Float32.roundRatio n d).man : ℚ) - (n : ℚ) / d / (2 : ℚ) ^ (e - 23)| ≤ 1 / 2 := by
  refine ⟨Float32.exponent n.natAbs d.natAbs, ?_, exponent_le_rat n d hn hd, ?_⟩
  · unfold Float32.roundRatio
    simp only [hn, if_false]
    split_ifs <;> rfl
  · have hdq : (0 : ℚ) < d := by exact_mod_cast hd
    unfold Float32.roundRatio
    simp only [hn, if_false]
    generalize Float32.exponent n.natAbs d.natAbs = e
    split_ifs with he
    · have hb := roundHalfEven_rat_bound (n * 2 ^ (23 - e).toNat) d hd
      have hz : (2 : ℚ) ^ (e - 23) = ((2 : ℚ) ^ (23 - e).toNat)⁻¹ := by
        rw [← zpow_natCast, ← zpow_neg]
        congr 1
        omega
      have ex : (n : ℚ) / d / (2 : ℚ) ^ (e - 23)
          = ((n * 2 ^ (23 - e).toNat : Int) : ℚ) / d := by
        rw [hz]
        push_cast
        field_simp
      show |((roundHalfEven (n * 2 ^ (23 - e).toNat) d : Int) : ℚ) - _| ≤ 1 / 2
      rw [ex]
      exact hb
    · have hpos : (0 : Int) < d * 2 ^ (e - 23).toNat := by positivity
      have hb := roundHalfEven_rat_bound n (d * 2 ^ (e - 23).toNat) hpos
      have hz : (2 : ℚ) ^ (e - 23) = (2 : ℚ) ^ (e - 23).toNat := by
        rw [← zpow_natCast]
        congr 1
        omega
      have ex : (n : ℚ) / d / (2 : ℚ) ^ (e - 23)
          = (n : ℚ) / ((d * 2 ^ (e - 23).toNat : Int) : ℚ) := by
        rw [hz]
        push_cast
        field_simp
      show |((roundHalfEven n (d * 2 ^ (e - 23).toNat) : Int) : ℚ) - _| ≤ 1 / 2
      rw [ex]
      exact hb

/-- Integer core of the rounding argument: a significand within one half of
`p * J / s` has the same floor (after division by `J`) as `p / s`. -/
theorem floor_round_int (p s m J : Int) (hp : |p| ≤ 2 ^ 24) (hs0 : 0 < s) (hJ : 0 < J)
    (hE : s * 2 ^ 23 ≤ |p| * J) (hm : |2 * (m * s - p * J)| ≤ s) :
    m / J = p / s := by
  have h1 := Int.emod_add_ediv p s
  have h2 := Int.emod_nonneg p hs0.ne.symm
  have h3 := Int.emod_lt_of_pos p hs0
  set n := p / s with hn
  set k := p % s with hk
  rw [abs_le] at hm
  obtain ⟨hlo, hhi⟩ := hm
  have hs2 : s ≤ 2 * J := by
    have : |p| * J ≤ 2 ^ 24 * J := mul_le_mul_of_nonneg_right hp hJ.le
    norm_num at hE this hp ⊢
    linarith
  have hkJ : 0 ≤ k * J := mul_nonneg h2 hJ.le
  have hlow : n * J ≤ m := by
    by_contra hcon
    have hcon' : m + 1 ≤ n * J := by omega
    have : (m + 1) * s ≤ n * J * s := mul_le_mul_of_nonneg_right hcon' hs0.le
    nlinarith
  have hupp : m < (n + 1) * J := by
    by_contra hcon
    have hcon' : (n + 1) * J ≤ m := by omega
    have hms : (n + 1) * J * s ≤ m * s := mul_le_mul_of_nonneg_right hcon' hs0.le
    have hsk : 2 * J * (s - k) ≤ s := by nlinarith
    have hsk1 : s - k = 1 := by
      by_contra hne
      have h2' : 2 ≤ s - k := by omega
      have : 2 * J * 2 ≤ 2 * J * (s - k) := mul_le_mul_of_nonneg_left h2' (by positivity)
      omega
    have hsJ : s = 2 * J := by
      rw [hsk1] at hsk
      omega
    have hpabs : |p| = 2 ^ 24 := by
      have : (2 * J) * 2 ^ 23 ≤ |p| * J := by rw [← hsJ]; exact hE
      have : 2 ^ 24 * J ≤ |p| * J := by norm_num at this ⊢; linarith
      have := le_of_mul_le_mul_right this hJ
      omega
    have hpodd : p = 2 * (n * J + J) - 1 := by
      have : k = s - 1 := by omega
      rw [← h1, this, hsJ]
      ring
    norm_num at hpabs
    rcases abs_eq (by norm_num : (0 : Int) ≤ 16777216) |>.mp hpabs with h | h <;> omega
  have hJn : m / J = n := by
    apply le_antisymm
    · have := (Int.ediv_lt_iff_lt_mul hJ).mpr hupp
      omega
    · exact (Int.le_ediv_iff_mul_le hJ).mpr hlow
  exact hJn

theorem floor_round_rat (p s : Int) (hp : |p| ≤ 2 ^ 24) (hs0 : 0 < s)
    (E m : Int) (hE : (2 : ℚ) ^ E ≤ |(p : ℚ) / s|)
    (hm : |(m : ℚ) - (p : ℚ) / s / (2 : ℚ) ^ (E - 23)| ≤ 1 / 2) :
    ⌊(m : ℚ) * (2 : ℚ) ^ (E - 23)⌋ = p / s := by
  have hsq : (0 : ℚ) < s := by exact_mod_cast hs0
  have hpq : |(p : ℚ)| ≤ 2 ^ 24 := by exact_mod_cast hp
  rw [abs_div, abs_of_pos hsq] at hE
  by_cases hE24 : 24 ≤ E
  · -- only `|p| = 2 ^ 24`, `s = 1`, `E = 24` is possible
    have h24 : (2 : ℚ) ^ (24 : Int) ≤ (2 : ℚ) ^ E := zpow_le_zpow_right₀ (by norm_num) hE24
    have hps : (2 : ℚ) ^ (24 : Int) * s ≤ |(p : ℚ)| := by
      have := (le_div_iff₀ hsq).mp (h24.trans hE)
      linarith
    have hs1 : s = 1 := by
      have : ((2 : ℚ) ^ (24 : Int)) * s ≤ 2 ^ 24 := hps.trans hpq
      have h' : (s : ℚ) ≤ 1 := by norm_num at this; linarith
      have : s ≤ 1 := by exact_mod_cast h'
      omega
    subst hs1
    have hpabs : |p| = 2 ^ 24 := by
      have h' : ((2 ^ 24 : Int) : ℚ) ≤ ((|p| : Int) : ℚ) := by
        push_cast
        norm_num at hps ⊢
        linarith
      have : (2 ^ 24 : Int) ≤ |p| := by exact_mod_cast h'
      omega
    have hEle : E ≤ 24 := by
      have h' : (2 : ℚ) ^ E ≤ (2 : ℚ) ^ (24 : Int) := by
        have : (2 : ℚ) ^ E ≤ |(p : ℚ)| := by simpa using hE
        norm_num at hpq ⊢
        linarith
      exact (zpow_le_zpow_iff_right₀ (by norm_num : (1 : ℚ) < 2)).mp h'
    have hE' : E = 24 := by omega
    subst hE'
    norm_num at hm ⊢
    have hm2 : |2 * m - p| ≤ 1 := by
      have h' : |(2 : ℚ) * m - p| ≤ 1 := by
        have : (2 : ℚ) * m - p = 2 * ((m : ℚ) - p / 2) := by ring
        rw [this, abs_mul]
        norm_num
        linarith
      exact_mod_cast h'
    have hmp : m * 2 = p := by
      rw [abs_le] at hm2
      norm_num at hpabs
      rcases abs_eq (by norm_num : (0 : Int) ≤ 16777216) |>.mp hpabs with h | h <;> omega
    have : (m : ℚ) * 2 = ((m * 2 : Int) : ℚ) := by push_cast; ring
    rw [this, Int.floor_intCast, hmp]
  · have hE23 : E ≤ 23 := by omega
    set j := (23 - E).toNat with hj
    have hz : (2 : ℚ) ^ (E - 23) = ((2 : ℚ) ^ j)⁻¹ := by
      rw [← zpow_natCast, ← zpow_neg]
      congr 1
      omega
    have hzE : (2 : ℚ) ^ E = (2 : ℚ) ^ 23 / (2 : ℚ) ^ j := by
      have : E = (23 : Int) - (j : Int) := by omega
      conv_lhs => rw [this]
      rw [zpow_sub₀ (by norm_num), zpow_natCast]
      norm_num
    have hJq : (0 : ℚ) < (2 : ℚ) ^ j := by positivity
    have hEint : s * 2 ^ 23 ≤ |p| * (2 ^ j : Int) := by
      rw [hzE, div_le_div_iff₀ hJq hsq] at hE
      have h' : ((s * 2 ^ 23 : Int) : ℚ) ≤ ((|p| * (2 ^ j : Int) : Int) : ℚ) := by
        push_cast
        linarith
      exact_mod_cast h'
    have hmint : |2 * (m * s - p * (2 ^ j : Int))| ≤ s := by
      have h' : |((2 * (m * s - p * (2 ^ j : Int)) : Int) : ℚ)| ≤ (s : ℚ) := by
        push_cast
        rw [hz] at hm
        have e : (2 : ℚ) * ((m : ℚ) * s - p * 2 ^ j)
            = (2 * s) * ((m : ℚ) - (p : ℚ) / s / ((2 : ℚ) ^ j)⁻¹) := by
          field_simp
          ring
        rw [e, abs_mul, abs_of_pos (by positivity : (0 : ℚ) < 2 * s)]
        nlinarith
      exact_mod_cast h'
    have hcore := floor_round_int p s m (2 ^ j) hp hs0 (by positivity) hEint hmint
    rw [hz, ← hcore]
    have : (m : ℚ) * ((2 : ℚ) ^ j)⁻¹ = (m : ℚ) / ((2 ^ j : Nat) : ℚ) := by
      push_cast
      rw [div_eq_mul_inv]
    rw [this, Rat.floor_intCast_div_natCast]
    push_cast
    rfl

theorem toInt_floor (a : Float32) : Float32.toInt (Float32.floor a) = ⌊Float32.val a⌋ := by
  unfold Float32.floor Float32.val
  split_ifs with h
  · have e : (a.man : ℚ) * (2 : ℚ) ^ a.exp = ((a.man * 2 ^ a.exp.toNat : Int) : ℚ) := by
      push_cast
      congr 1
      rw [← zpow_natCast]
      congr 1
      omega
    rw [e, Int.floor_intCast]
    simp [Float32.toInt]
  · have e : (a.man : ℚ) * (2 : ℚ) ^ a.exp = (a.man : ℚ) / ((2 ^ (-a.exp).toNat : Nat) : ℚ) := by
      push_cast
      rw [div_eq_mul_inv, ← zpow_natCast, ← zpow_neg]
      congr 2
      omega
    rw [e, Rat.floor_intCast_div_natCast]
    simp [Float32.toInt]

theorem toInt_of_val_int (a : Float32) (z : Int) (h : Float32.val a = z) :
    Float32.toInt a = z := by
  unfold Float32.val at h
  unfold Float32.toInt
  split_ifs with hx
  · have e : (a.man : ℚ) * (2 : ℚ) ^ a.exp = ((a.man * 2 ^ a.exp.toNat : Int) : ℚ) := by
      push_cast
      congr 1
      rw [← zpow_natCast]
      congr 1
      omega
    rw [e] at h
    exact_mod_cast h
  · have e : (2 : ℚ) ^ a.exp = ((2 : ℚ) ^ (-a.exp).toNat)⁻¹ := by
      rw [← zpow_natCast, ← zpow_neg]
      congr 1
      omega
    rw [e] at h
    have hpos : (0 : ℚ) < (2 : ℚ) ^ (-a.exp).toNat := by positivity
    have h' : ((a.man : Int) : ℚ) = ((z * 2 ^ (-a.exp).toNat : Int) : ℚ) := by
      push_cast
      field_simp at h
      linarith
    have h'' : a.man = z * 2 ^ (-a.exp).toNat := by exact_mod_cast h'
    rw [h'']
    exact Int.mul_tdiv_cancel _ (by positivity)

/-- An integer with at most 24 significant bits is not changed by rounding. -/
theorem roundRatio_exact (N z : Int) (t : Nat) (hN : N = z * 2 ^ t) (hz : |z| ≤ 2 ^ 24) :
    Float32.val (Float32.roundRatio N 1) = N := by
  by_cases h0 : N = 0
  · subst h0
    simp [Float32.roundRatio, Float32.val]
  obtain ⟨e, hexp, hE, hm⟩ := roundRatio_spec N 1 h0 one_pos
  simp only [Int.cast_one, div_one] at hE hm
  have hzq : |(z : ℚ)| ≤ 2 ^ 24 := by exact_mod_cast hz
  have hNq : (N : ℚ) = z * 2 ^ t := by rw [hN]; push_cast; ring
  have hle : e ≤ 24 + t := by
    have h1 : |(N : ℚ)| ≤ (2 : ℚ) ^ ((24 : Int) + t) := by
      rw [hNq, abs_mul, abs_of_pos (by positivity : (0 : ℚ) < 2 ^ t),
        zpow_add₀ (by norm_num), zpow_natCast]
      have h24 : (2 : ℚ) ^ (24 : Int) = 2 ^ (24 : Nat) := by norm_cast
      rw [h24]
      exact mul_le_mul_of_nonneg_right hzq (by positivity)
    exact (zpow_le_zpow_iff_right₀ (by norm_num : (1 : ℚ) < 2)).mp (hE.trans h1)
  have hw : ∃ w : Int, (N : ℚ) = w * (2 : ℚ) ^ (e - 23) := by
    by_cases hc : e - 23 ≤ 0
    · refine ⟨N * 2 ^ (23 - e).toNat, ?_⟩
      have : (2 : ℚ) ^ (e - 23) = ((2 : ℚ) ^ (23 - e).toNat)⁻¹ := by
        rw [← zpow_natCast, ← zpow_neg]
        congr 1
        omega
      rw [this]
      push_cast
      field_simp
    · by_cases hct : e - 23 ≤ t
      · refine ⟨z * 2 ^ (t - (e - 23).toNat), ?_⟩
        have : (2 : ℚ) ^ (e - 23) = (2 : ℚ) ^ (e - 23).toNat := by
          rw [← zpow_natCast]
          congr 1
          omega
        rw [this, hNq]
        push_cast
        rw [mul_assoc, ← pow_add]
        congr 2
        omega
      · have he : e = 24 + t := by omega
        have hz24 : (2 : ℚ) ^ (24 : Nat) ≤ |(z : ℚ)| := by
          rw [he, hNq, abs_mul, abs_of_pos (by positivity : (0 : ℚ) < 2 ^ t),
            zpow_add₀ (by norm_num), zpow_natCast] at hE
          have := le_of_mul_le_mul_right hE (by positivity : (0 : ℚ) < 2 ^ t)
          have h24 : (2 : ℚ) ^ (24 : Int) = 2 ^ (24 : Nat) := by norm_cast
          rw [← h24]
          exact this
        have hzabs : |z| = 2 ^ 24 := by
          have : (2 ^ 24 : Int) ≤ |z| := by exact_mod_cast hz24
          omega
        have : (2 : ℚ) ^ (e - 23) = (2 : ℚ) ^ (t + 1) := by
          rw [← zpow_natCast]
          congr 1
          omega
        rw [this, hNq]
        norm_num at hzabs
        rcases abs_eq (by norm_num : (0 : Int) ≤ 16777216) |>.mp hzabs with h | h
        · refine ⟨2 ^ 23, ?_⟩
          rw [h]
          push_cast
          ring
        · refine ⟨-2 ^ 23, ?_⟩
          rw [h]
          push_cast
          ring
  obtain ⟨w, hw⟩ := hw
  have hpos : (0 : ℚ) < (2 : ℚ) ^ (e - 23) := by positivity
  have hdiv : (N : ℚ) / (2 : ℚ) ^ (e - 23) = w := by
    rw [hw]
    field_simp
  rw [hdiv] at hm
  have hman : (Float32.roundRatio N 1).man = w := by
    have h1 : |(((Float32.roundRatio N 1).man - w : Int) : ℚ)| ≤ 1 / 2 := by
      push_cast
      exact hm
    have h2 : |(Float32.roundRatio N 1).man - w| < 1 := by
      have : (((|(Float32.roundRatio N 1).man - w| : Int)) : ℚ) < 1 := by
        push_cast
        linarith
      exact_mod_cast this
    have := Int.abs_lt_one_iff.mp h2
    omega
  unfold Float32.val
  rw [hman, hexp, hw]

theorem val_ofInt (n : Int) (h : |n| ≤ 2 ^ 24) : Float32.val (Float32.ofInt n) = n :=
  roundRatio_exact n n 0 (by simp) h

theorem val_div_spec (a b : Float32) (ha : a.man ≠ 0) (hb : 0 < b.man) :
    ∃ E : Int, (Float32.div a b).exp = E - 23 ∧
      (2 : ℚ) ^ E ≤ |Float32.val a / Float32.val b| ∧
      |((Float32.div a b).man : ℚ) - Float32.val a / Float32.val b / (2 : ℚ) ^ (E - 23)|
        ≤ 1 / 2 := by
  have hsign : b.man.sign = 1 := Int.sign_eq_one_of_pos hb
  obtain ⟨e, hexp, hE, hm⟩ := roundRatio_spec a.man b.man ha hb
  have hbq : (0 : ℚ) < b.man := by exact_mod_cast hb
  have hq : Float32.val a / Float32.val b
      = (a.man : ℚ) / b.man * (2 : ℚ) ^ (a.exp - b.exp) := by
    unfold Float32.val
    rw [zpow_sub₀ (by norm_num)]
    field_simp
  have hpow : (0 : ℚ) < (2 : ℚ) ^ (a.exp - b.exp) := by positivity
  refine ⟨e + (a.exp - b.exp), ?_, ?_, ?_⟩
  · simp only [Float32.div, hsign, mul_one, hexp]
    ring
  · rw [hq, abs_mul, abs_of_pos hpow, zpow_add₀ (by norm_num)]
    exact mul_le_mul_of_nonneg_right hE hpow.le
  · have e1 : Float32.val a / Float32.val b / (2 : ℚ) ^ (e + (a.exp - b.exp) - 23)
        = (a.man : ℚ) / b.man / (2 : ℚ) ^ (e - 23) := by
      have : e + (a.exp - b.exp) - 23 = (e - 23) + (a.exp - b.exp) := by ring
      rw [hq, this, zpow_add₀ (by norm_num)]
      field_simp
      ring
    rw [e1]
    simpa only [Float32.div, hsign, mul_one] using hm

theorem val_mul_exact (a b : Float32) (z : Int) (h : Float32.val a * Float32.val b = z)
    (hz : |z| ≤ 2 ^ 24) : Float32.val (Float32.mul a b) = z := by
  have hprod : ((a.man * b.man : Int) : ℚ) * (2 : ℚ) ^ (a.exp + b.exp) = z := by
    rw [← h]
    unfold Float32.val
    rw [zpow_add₀ (by norm_num)]
    push_cast
    ring
  have hr : Float32.val (Float32.roundRatio (a.man * b.man) 1) = ((a.man * b.man : Int) : ℚ) := by
    by_cases hc : a.exp + b.exp ≤ 0
    · apply roundRatio_exact (a.man * b.man) z (-(a.exp + b.exp)).toNat _ hz
      have e : (2 : ℚ) ^ (a.exp + b.exp) = ((2 : ℚ) ^ (-(a.exp + b.exp)).toNat)⁻¹ := by
        rw [← zpow_natCast, ← zpow_neg]
        congr 1
        omega
      rw [e] at hprod
      have hpos : (0 : ℚ) < (2 : ℚ) ^ (-(a.exp + b.exp)).toNat := by positivity
      have : ((a.man * b.man : Int) : ℚ) = ((z * 2 ^ (-(a.exp + b.exp)).toNat : Int) : ℚ) := by
        push_cast
        rw [← hprod]
        push_cast
        field_simp
      exact_mod_cast this
    · apply roundRatio_exact (a.man * b.man) (a.man * b.man) 0 (by simp)
      have e : (2 : ℚ) ^ (a.exp + b.exp) = (((2 : Int) ^ (a.exp + b.exp).toNat : Int) : ℚ) := by
        push_cast
        rw [← zpow_natCast]
        congr 1
        omega
      rw [e] at hprod
      have hint : a.man * b.man * 2 ^ (a.exp + b.exp).toNat = z := by exact_mod_cast hprod
      have hone : (1 : Int) ≤ 2 ^ (a.exp + b.exp).toNat := one_le_pow₀ (by norm_num)
      calc |a.man * b.man| = |a.man * b.man| * 1 := (mul_one _).symm
        _ ≤ |a.man * b.man| * 2 ^ (a.exp + b.exp).toNat :=
            mul_le_mul_of_nonneg_left hone (abs_nonneg _)
        _ = |z| := by
            conv_rhs =>
              rw [← hint, abs_mul,
                abs_of_pos (by positivity : (0 : Int) < 2 ^ (a.exp + b.exp).toNat)]
        _ ≤ 2 ^ 24 := hz
  unfold Float32.val at hr ⊢
  simp only [Float32.mul]
  rw [zpow_add₀ (by norm_num), ← mul_assoc, hr]
  exact hprod

theorem man_pos_of_val_pos (a : Float32) (h : 0 < Float32.val a) : 0 < a.man := by
  unfold Float32.val at h
  have hp : (0 : ℚ) < (2 : ℚ) ^ a.exp := by positivity
  have : (0 : ℚ) < a.man := (mul_pos_iff_of_pos_right hp).mp h
  exact_mod_cast this

theorem man_ne_zero_of_val_ne_zero (a : Float32) (h : Float32.val a ≠ 0) : a.man ≠ 0 := by
  intro h0
  apply h
  simp [Float32.val, h0]

/-- Within the exactly representable range the single precision quotient, floored,
is the floor of the exact quotient. -/
theorem chunkAxis_eq_ediv (s c : Int) (hs0 : 0 < s) (hs : s ≤ 2 ^ 24) (hc : |c| ≤ 2 ^ 24) :
    WorldMgr.chunkAxis s c = c / s := by
  have hvs : Float32.val (Float32.ofInt s) = s :=
    val_ofInt s (by rw [abs_of_pos hs0]; exact hs)
  have hvc : Float32.val (Float32.ofInt c) = c := val_ofInt c hc
  unfold WorldMgr.chunkAxis
  simp only
  rw [toInt_floor]
  by_cases hc0 : c = 0
  · subst hc0
    have : Float32.val (Float32.div (Float32.ofInt 0) (Float32.ofInt s)) = 0 := by
      simp [Float32.val, Float32.div, Float32.ofInt, Float32.roundRatio]
    rw [this]
    simp
  · have hb : 0 < (Float32.ofInt s).man :=
      man_pos_of_val_pos _ (by rw [hvs]; exact_mod_cast hs0)
    have ha : (Float32.ofInt c).man ≠ 0 :=
      man_ne_zero_of_val_ne_zero _ (by rw [hvc]; exact_mod_cast hc0)
    obtain ⟨E, hexp, hE, hm⟩ := val_div_spec _ _ ha hb
    rw [hvs, hvc] at hE hm
    have := floor_round_rat c s hc hs0 E _ hE hm
    rw [← this]
    unfold Float32.val
    rw [hexp]

/-- Within the exactly representable range `WorldMgr::meshPos` returns, on one axis, the
floor of the quotient times the tile size. -/
theorem meshAxis_eq_ediv_mul (s c : Int) (hs0 : 0 < s) (h : |c| + s ≤ 2 ^ 24) :
    WorldMgr.meshAxis s c = c / s * s := by
  have habs := abs_nonneg c
  have hs : s ≤ 2 ^ 24 := by omega
  have hc : |c| ≤ 2 ^ 24 := by omega
  have hx : Float32.toInt (Float32.floor (Float32.div (Float32.ofInt c) (Float32.ofInt s)))
      = c / s := chunkAxis_eq_ediv s c hs0 hs hc
  have h1 := Int.emod_add_ediv c s
  have h2 := Int.emod_nonneg c hs0.ne.symm
  have h3 := Int.emod_lt_of_pos c hs0
  have hcs := abs_le.mp (le_refl |c|)
  have hprod : |c / s * s| ≤ 2 ^ 24 := by
    rw [abs_le]
    constructor <;> nlinarith
  have hq : |c / s| ≤ 2 ^ 24 := by
    have hle : |c / s| ≤ |c / s| * s := le_mul_of_one_le_right (abs_nonneg _) (by omega)
    have : |c / s * s| = |c / s| * s := by rw [abs_mul, abs_of_pos hs0]
    omega
  have hvs : Float32.val (Float32.ofInt s) = s :=
    val_ofInt s (by rw [abs_of_pos hs0]; exact hs)
  have hvx : Float32.val (Float32.ofInt (c / s)) = ((c / s : Int) : ℚ) := val_ofInt _ hq
  unfold WorldMgr.meshAxis
  simp only
  rw [hx]
  apply toInt_of_val_int
  apply val_mul_exact _ _ _ _ hprod
  rw [hvs, hvx]
  push_cast
  ring

/-- For a positive divisor `Int.fdiv` is the floor of the exact quotient. -/
theorem fdiv_eq_floor (p s : Int) (hs : 0 < s) : Int.fdiv p s = ⌊(p : ℚ) / (s : ℚ)⌋ := by
  rw [Int.fdiv_eq_ediv _ hs.le]
  have h := Rat.floor_intCast_div_natCast p s.toNat
  have hcast : ((s.toNat : Int)) = s := Int.toNat_of_nonneg hs.le
  have hq : ((s.toNat : ℚ)) = (s : ℚ) := by exact_mod_cast congrArg (fun t : Int => (t : ℚ)) hcast
  rw [hq, hcast] at h
  exact h.symm

/-! ## The claims -/

/-- C1 (counterexample): with chunk side 32 the world coordinate
x = 16777247 = 2^24 + 31 is mapped to chunk x = 524289 by `WorldMgr::chunkPos`, not to
floor(16777247 / 32) = 524288: the conversion to `float` rounds the coordinate up to
16777248 = 32 * 524289. -/
theorem C1_chunkPos_large_not_floor :
    Float32.ofInt 16777247 = ⟨8388624, 1⟩ ∧
      (WorldMgr.chunkPos 32 ⟨16777247, 0, 0⟩).x = 524289 ∧
      Int.fdiv 16777247 32 = 524288 ∧
      (WorldMgr.chunkPos 32 ⟨16777247, 0, 0⟩).x ≠ Int.fdiv 16777247 32 := by
  decide

/-- C1 (amended): for every chunk side length `0 < s ≤ 2^24` and every world position
`p` with `|p| ≤ 2^24` on each axis, `WorldMgr::chunkPos(p)` equals floor(p / s) on each
axis (`Int.fdiv` is floor division, not truncation toward zero). -/
theorem C1_chunkPos_floor (s : Int) (p : IVec3) (hs0 : 0 < s) (hs : s ≤ 2 ^ 24)
    (hx : |p.x| ≤ 2 ^ 24) (hy : |p.y| ≤ 2 ^ 24) (hz : |p.z| ≤ 2 ^ 24) :
    WorldMgr.chunkPos s p = ⟨Int.fdiv p.x s, Int.fdiv p.y s, Int.fdiv p.z s⟩ := by
  unfold WorldMgr.chunkPos
  rw [chunkAxis_eq_ediv s p.x hs0 hs hx, chunkAxis_eq_ediv s p.y hs0 hs hy,
    chunkAxis_eq_ediv s p.z hs0 hs hz, Int.fdiv_eq_ediv _ hs0.le, Int.fdiv_eq_ediv _ hs0.le,
    Int.fdiv_eq_ediv _ hs0.le]

/-- C1 (witness): with chunk side 32, world x = -1 maps to chunk x = -1 (not 0) and
world y = 33 maps to chunk y = 1. -/
theorem C1_chunkPos_floor_witness :
    (0 : Int) < 32 ∧ (32 : Int) ≤ 2 ^ 24 ∧ |(-1 : Int)| ≤ 2 ^ 24 ∧ |(33 : Int)| ≤ 2 ^ 24 ∧
      |(0 : Int)| ≤ 2 ^ 24 ∧
      WorldMgr.chunkPos 32 ⟨-1, 33, 0⟩ = ⟨Int.fdiv (-1) 32, Int.fdiv 33 32, Int.fdiv 0 32⟩ ∧
      Int.fdiv (-1) 32 = -1 ∧ Int.fdiv 33 32 = 1 :=
  ⟨by decide, by decide, by decide, by decide, by decide,
    C1_chunkPos_floor 32 ⟨-1, 33, 0⟩ (by decide) (by decide) (by decide) (by decide)
      (by decide),
    by decide, by decide⟩

/-- C2 (code at the failing input): with chunk side 32, `World::getChunkPos` maps world
x = -1 to chunk x = 0, whereas floor(-1 / 32) = -1; world x = 33 maps to chunk x = 1. -/
theorem C2_getChunkPos_truncates :
    World.getChunkPos 32 ⟨-1, 0, 0⟩ = ⟨0, 0, 0⟩ ∧ Int.fdiv (-1) 32 = -1 ∧
      World.getChunkPos 32 ⟨33, 0, 0⟩ = ⟨1, 0, 0⟩ := by
  decide

/-- C3: starting from a state in which the mesh tile of `p` is not in the dedup set, two
consecutive calls `scheduleMeshExtraction(p)` return true and then false, and the second
call leaves the whole scheduler state (pending queue, dedup set, results) unchanged. -/
theorem C3_schedule_twice {α : Type} (tile : IVec3 → IVec3) (p : IVec3) (st : Scheduler α)
    (h : tile p ∉ st.positionsExtracted) :
    (Scheduler.scheduleMeshExtraction tile p st).1 = true ∧
      (Scheduler.scheduleMeshExtraction tile p
        (Scheduler.scheduleMeshExtraction tile p st).2).1 = false ∧
      (Scheduler.scheduleMeshExtraction tile p
        (Scheduler.scheduleMeshExtraction tile p st).2).2
        = (Scheduler.scheduleMeshExtraction tile p st).2 := by
  simp [Scheduler.scheduleMeshExtraction, h]

/-- C3 (witness): an empty scheduler with 32-unit mesh tiles and the position (-1, 33, 0). -/
theorem C3_schedule_twice_witness :
    WorldMgr.meshPos ⟨32, 32, 32⟩ ⟨-1, 33, 0⟩
        ∉ (⟨[], ∅, []⟩ : Scheduler Unit).positionsExtracted ∧
      (Scheduler.scheduleMeshExtraction (WorldMgr.meshPos ⟨32, 32, 32⟩) ⟨-1, 33, 0⟩
        (⟨[], ∅, []⟩ : Scheduler Unit)).1 = true ∧
      (Scheduler.scheduleMeshExtraction (WorldMgr.meshPos ⟨32, 32, 32⟩) ⟨-1, 33, 0⟩
        (Scheduler.scheduleMeshExtraction (WorldMgr.meshPos ⟨32, 32, 32⟩) ⟨-1, 33, 0⟩
          (⟨[], ∅, []⟩ : Scheduler Unit)).2).1 = false ∧
      (Scheduler.scheduleMeshExtraction (WorldMgr.meshPos ⟨32, 32, 32⟩) ⟨-1, 33, 0⟩
        (Scheduler.scheduleMeshExtraction (WorldMgr.meshPos ⟨32, 32, 32⟩) ⟨-1, 33, 0⟩
          (⟨[], ∅, []⟩ : Scheduler Unit)).2).2
        = (Scheduler.scheduleMeshExtraction (WorldMgr.meshPos ⟨32, 32, 32⟩) ⟨-1, 33, 0⟩
          (⟨[], ∅, []⟩ : Scheduler Unit)).2 :=
  ⟨by simp, C3_schedule_twice (WorldMgr.meshPos ⟨32, 32, 32⟩) ⟨-1, 33, 0⟩ ⟨[], ∅, []⟩ (by simp)⟩

/-- C4: for every position `p` and every scheduler state (the tile of `p` pending, in
flight, completed or unscheduled), after `allowReExtraction(p)` a subsequent
`scheduleMeshExtraction(p)` returns true. -/
theorem C4_schedule_after_allow {α : Type} (tile : IVec3 → IVec3) (p : IVec3)
    (st : Scheduler α) :
    (Scheduler.scheduleMeshExtraction tile p
      (Scheduler.allowReExtraction tile p st).2).1 = true := by
  simp [Scheduler.scheduleMeshExtraction, Scheduler.allowReExtraction]

/-- C5: `World::pop(item)` on an empty mesh queue returns false, leaves `item` as the
caller passed it and leaves the queue empty. -/
theorem C5_pop_empty {α : Type} (item : α) :
    World.pop item ([] : List α) = (false, item, []) := by
  rfl

/-- C6: `World::pop(item)` on a non-empty mesh queue returns true, sets `item` to the
front and removes exactly that element, keeping the rest in order; so popping a queue of
`n` results `n + 1` times yields the `n` results in queue order, each with return value
true, and then false with `item` left as the last result (or as passed, if `n = 0`). -/
theorem C6_pop_front_order {α : Type} :
    (∀ (item front : α) (rest : List α),
        World.pop item (front :: rest) = (true, front, rest)) ∧
      (∀ (item : α) (q : List α),
        World.popTimes q.length item q = (q.map (fun r => (true, r)), [])) ∧
      (∀ (item : α) (q : List α),
        World.popTimes (q.length + 1) item q
          = (q.map (fun r => (true, r)) ++ [(false, q.getLastD item)], [])) := by
  refine ⟨fun _ _ _ => rfl, ?_, ?_⟩
  · intro item q
    induction q generalizing item with
    | nil => rfl
    | cons x rest ih =>
      simp [World.popTimes, World.pop, ih x]
  · intro item q
    induction q generalizing item with
    | nil => rfl
    | cons x rest ih =>
      have hstep : World.popTimes ((x :: rest).length + 1) item (x :: rest)
          = ((true, x) :: (World.popTimes (rest.length + 1) x rest).1,
              (World.popTimes (rest.length + 1) x rest).2) := rfl
      rw [hstep, ih x]
      cases rest <;> simp [List.getLastD]

/-- C7 (counterexample): with tile size 32 on every axis the world coordinate
x = 16777247 = 2^24 + 31 is moved up to 16777248 by `WorldMgr::meshPos`, so
`p - meshPos(p) = -1` is negative: the position lies outside the tile it is mapped to. -/
theorem C7_meshPos_large_outside_tile :
    (WorldMgr.meshPos ⟨32, 32, 32⟩ ⟨16777247, 0, 0⟩).x = 16777248 ∧
      ¬ (0 ≤ 16777247 - (WorldMgr.meshPos ⟨32, 32, 32⟩ ⟨16777247, 0, 0⟩).x) := by
  decide

/-- C7 (amended): for every mesh tile size `s` (every component > 0) and every world
position `p` with `|p| + s ≤ 2^24` on each axis, `WorldMgr::meshPos(p)` is `p` cut down
to the tile grid: it is floor(p / s) * s, so on each axis it is an integer multiple of
the tile size and `0 ≤ p - meshPos(p) < s`; every position `q` of the same range that
lies inside the tile of `p` (negative coordinates included) maps to the same tile
coordinate. -/
theorem C7_meshPos_tile (s p : IVec3) (hsx : 0 < s.x) (hsy : 0 < s.y) (hsz : 0 < s.z)
    (hx : |p.x| + s.x ≤ 2 ^ 24) (hy : |p.y| + s.y ≤ 2 ^ 24) (hz : |p.z| + s.z ≤ 2 ^ 24) :
    WorldMgr.meshPos s p
        = ⟨Int.fdiv p.x s.x * s.x, Int.fdiv p.y s.y * s.y, Int.fdiv p.z s.z * s.z⟩ ∧
      (s.x ∣ (WorldMgr.meshPos s p).x ∧ 0 ≤ p.x - (WorldMgr.meshPos s p).x ∧
        p.x - (WorldMgr.meshPos s p).x < s.x) ∧
      (s.y ∣ (WorldMgr.meshPos s p).y ∧ 0 ≤ p.y - (WorldMgr.meshPos s p).y ∧
        p.y - (WorldMgr.meshPos s p).y < s.y) ∧
      (s.z ∣ (WorldMgr.meshPos s p).z ∧ 0 ≤ p.z - (WorldMgr.meshPos s p).z ∧
        p.z - (WorldMgr.meshPos s p).z < s.z) ∧
      ∀ q : IVec3, |q.x| + s.x ≤ 2 ^ 24 → |q.y| + s.y ≤ 2 ^ 24 → |q.z| + s.z ≤ 2 ^ 24 →
        ((WorldMgr.meshPos s p).x ≤ q.x ∧ q.x < (WorldMgr.meshPos s p).x + s.x) →
        ((WorldMgr.meshPos s p).y ≤ q.y ∧ q.y < (WorldMgr.meshPos s p).y + s.y) →
        ((WorldMgr.meshPos s p).z ≤ q.z ∧ q.z < (WorldMgr.meshPos s p).z + s.z) →
        WorldMgr.meshPos s q = WorldMgr.meshPos s p := by
  have axis : ∀ t c : Int, 0 < t → t ∣ c / t * t ∧ 0 ≤ c - c / t * t ∧ c - c / t * t < t := by
    intro t c ht
    have h1 := Int.emod_add_ediv c t
    have h2 := Int.emod_nonneg c ht.ne.symm
    have h3 := Int.emod_lt_of_pos c ht
    have h4 : t * (c / t) = c / t * t := mul_comm _ _
    exact ⟨Dvd.intro_left _ rfl, by omega, by omega⟩
  have same : ∀ t c d : Int, 0 < t → c / t * t ≤ d → d < c / t * t + t → d / t = c / t := by
    intro t c d ht hlo hhi
    apply le_antisymm
    · have : d / t < c / t + 1 := (Int.ediv_lt_iff_lt_mul ht).mpr (by linarith)
      omega
    · exact (Int.le_ediv_iff_mul_le ht).mpr hlo
  have hp : WorldMgr.meshPos s p = ⟨p.x / s.x * s.x, p.y / s.y * s.y, p.z / s.z * s.z⟩ := by
    unfold WorldMgr.meshPos
    rw [meshAxis_eq_ediv_mul s.x p.x hsx hx, meshAxis_eq_ediv_mul s.y p.y hsy hy,
      meshAxis_eq_ediv_mul s.z p.z hsz hz]
  refine ⟨?_, ?_, ?_, ?_, ?_⟩
  · rw [hp, Int.fdiv_eq_ediv _ hsx.le, Int.fdiv_eq_ediv _ hsy.le, Int.fdiv_eq_ediv _ hsz.le]
  · rw [hp]
    exact axis s.x p.x hsx
  · rw [hp]
    exact axis s.y p.y hsy
  · rw [hp]
    exact axis s.z p.z hsz
  · intro q hqx hqy hqz hx1 hy1 hz1
    rw [hp] at hx1 hy1 hz1 ⊢
    unfold WorldMgr.meshPos
    rw [meshAxis_eq_ediv_mul s.x q.x hsx hqx, meshAxis_eq_ediv_mul s.y q.y hsy hqy,
      meshAxis_eq_ediv_mul s.z q.z hsz hqz, same s.x p.x q.x hsx hx1.1 hx1.2,
      same s.y p.y q.y hsy hy1.1 hy1.2, same s.z p.z q.z hsz hz1.1 hz1.2]

/-- C7 (witness): 32-unit tiles and the position (-1, 33, 0), whose tile is (-32, 32, 0). -/
theorem C7_meshPos_tile_witness :
    WorldMgr.meshPos ⟨32, 32, 32⟩ ⟨-1, 33, 0⟩ = ⟨-32, 32, 0⟩ ∧
      WorldMgr.meshPos ⟨32, 32, 32⟩ ⟨-1, 33, 0⟩
        = ⟨Int.fdiv (-1) 32 * 32, Int.fdiv 33 32 * 32, Int.fdiv 0 32 * 32⟩ :=
  ⟨by decide,
    (C7_meshPos_tile ⟨32, 32, 32⟩ ⟨-1, 33, 0⟩ (by decide) (by decide) (by decide) (by decide)
      (by decide) (by decide)).1⟩

/-- C8 (code at the failing input): with mesh size 32, `World::getMeshPos` cuts world
x = -1 down to 0, so `p - getMeshPos(p) = -1` is negative, and the positions -31 and 31
share the tile coordinate 0, a tile that covers 63 units. -/
theorem C8_getMeshPos_truncates :
    World.getMeshPos 32 ⟨-1, 0, 0⟩ = ⟨0, 0, 0⟩ ∧
      ¬ (0 ≤ -1 - (World.getMeshPos 32 ⟨-1, 0, 0⟩).x) ∧
      World.getMeshPos 32 ⟨-31, 0, 0⟩ = ⟨0, 0, 0⟩ ∧
      World.getMeshPos 32 ⟨31, 0, 0⟩ = ⟨0, 0, 0⟩ := by
  decide

theorem raycastTraverse_findFloorCallback {M : Type} (check : M → Bool) (samples : List (Sampler M))
    (y : Int) :
    (raycastTraverse (WorldMgr.findFloorCallback check) samples y).2
      = match samples.find? (fun s => check s.material) with
        | some s => s.position.y
        | none => y := by
  induction samples generalizing y with
  | nil => rfl
  | cons s rest ih =>
    by_cases h : check s.material = true
    · simp [raycastTraverse, WorldMgr.findFloorCallback, h, List.find?]
    · simp only [Bool.not_eq_true] at h
      simp [raycastTraverse, WorldMgr.findFloorCallback, h, List.find?, ih]

/-- C9: `WorldMgr::findFloor(x, z, check)`, with the ray traversal calling the callback
on the visited samples in order until it returns false, returns the y coordinate of the
first visited sample whose material satisfies `check`, and `NO_FLOOR_FOUND` if no visited
sample satisfies it (an invalid ray visits no sample). -/
theorem C9_findFloor_first_match {M : Type} (NO_FLOOR_FOUND : Int)
    (rayDown : Int → Int → Option (List (Sampler M))) (x z : Int) (check : M → Bool) :
    WorldMgr.findFloor NO_FLOOR_FOUND rayDown x z check
      = match ((rayDown x z).getD []).find? (fun s => check s.material) with
        | some s => s.position.y
        | none => NO_FLOOR_FOUND := by
  unfold WorldMgr.findFloor WorldMgr.raycast raycastWithDirection
  cases h : rayDown x z with
  | none => simp
  | some samples =>
    simp only [Option.getD_some]
    exact raycastTraverse_findFloorCallback check samples NO_FLOOR_FOUND

theorem raycastTraverse_ne_failed {M σ : Type} (callback : σ → Sampler M → Bool × σ)
    (samples : List (Sampler M)) (st : σ) :
    (raycastTraverse callback samples st).1 ≠ RaycastResult.Failed := by
  induction samples generalizing st with
  | nil => simp [raycastTraverse]
  | cons s rest ih =>
    unfold raycastTraverse
    rcases hcb : callback st s with ⟨b, st1⟩
    cases b
    · simp
    · simpa using ih st1

theorem raycastTraverse_interupted_iff {M σ : Type} (callback : σ → Sampler M → Bool × σ)
    (samples : List (Sampler M)) (st : σ) :
    (raycastTraverse callback samples st).1 = RaycastResult.Interupted ↔
      ∃ before s after, samples = before ++ s :: after ∧
        (raycastTraverse callback before st).1 = RaycastResult.Completed ∧
        (callback (raycastTraverse callback before st).2 s).1 = false := by
  induction samples generalizing st with
  | nil => simp [raycastTraverse]
  | cons s rest ih =>
    rcases hcb : callback st s with ⟨b, st1⟩
    cases b
    · constructor
      · intro _
        exact ⟨[], s, rest, rfl, rfl, by simp [raycastTraverse, hcb]⟩
      · intro _
        simp [raycastTraverse, hcb]
    · have hstep : raycastTraverse callback (s :: rest) st = raycastTraverse callback rest st1 := by
        simp [raycastTraverse, hcb]
      rw [hstep, ih st1]
      constructor
      · rintro ⟨before, t, after, hl, hc, hf⟩
        refine ⟨s :: before, t, after, by simp [hl], ?_, ?_⟩
        · simpa [raycastTraverse, hcb] using hc
        · simpa [raycastTraverse, hcb] using hf
      · rintro ⟨before, t, after, hl, hc, hf⟩
        cases before with
        | nil =>
          simp only [List.nil_append, List.cons.injEq] at hl
          obtain ⟨rfl, rfl⟩ := hl
          simp [raycastTraverse, hcb] at hf
        | cons b0 before =>
          simp only [List.cons_append, List.cons.injEq] at hl
          obtain ⟨rfl, rfl⟩ := hl
          refine ⟨before, t, after, rfl, ?_, ?_⟩
          · simpa [raycastTraverse, hcb] using hc
          · simpa [raycastTraverse, hcb] using hf

/-- C10: the callback overload `WorldMgr::raycast` returns true if and only if the
underlying traversal reports Interrupted, which happens if and only if the ray is valid
and the callback, after returning true on the samples before, returned false for some
visited sample; a traversal that completes without interruption or fails returns false. -/
theorem C10_raycast_true_iff_interrupted {M σ : Type} (ray : Option (List (Sampler M)))
    (callback : σ → Sampler M → Bool × σ) (st : σ) :
    ((WorldMgr.raycast ray callback st).1 = true ↔
        (raycastWithDirection ray callback st).1 = RaycastResult.Interupted) ∧
      ((WorldMgr.raycast ray callback st).1 = true ↔
        ∃ samples before s after, ray = some samples ∧ samples = before ++ s :: after ∧
          (raycastTraverse callback before st).1 = RaycastResult.Completed ∧
          (callback (raycastTraverse callback before st).2 s).1 = false) ∧
      ((raycastWithDirection ray callback st).1 = RaycastResult.Completed →
        (WorldMgr.raycast ray callback st).1 = false) ∧
      ((raycastWithDirection ray callback st).1 = RaycastResult.Failed →
        (WorldMgr.raycast ray callback st).1 = false) := by
  refine ⟨by simp [WorldMgr.raycast], ?_, ?_, ?_⟩
  · cases ray with
    | none => simp [WorldMgr.raycast, raycastWithDirection]
    | some samples =>
      simp only [WorldMgr.raycast, raycastWithDirection, decide_eq_true_eq, Option.some.injEq]
      rw [raycastTraverse_interupted_iff]
      constructor
      · rintro ⟨before, s, after, h1, h2, h3⟩
        exact ⟨samples, before, s, after, rfl, h1, h2, h3⟩
      · rintro ⟨l, before, s, after, rfl, h1, h2, h3⟩
        exact ⟨before, s, after, h1, h2, h3⟩
  · intro h
    simp [WorldMgr.raycast, h]
  · intro h
    simp [WorldMgr.raycast, h]

theorem traceCallback_unlocked_air {V : Type} [DecidableEq V] (air : V) (origin cursorPos : IVec3)
    (r : PickResult) (s : RawSampler V) (h : s.voxel = air) :
    SceneManager.traceCallback air origin ⟨false, false, false⟩ cursorPos r s
      = (true, if s.currentPositionValid then
          ⟨r.didHit, true, r.hitVoxel, s.position, r.hitFace⟩ else r) := by
  simp only [SceneManager.traceCallback, SceneManager.lockedAny, h]
  by_cases hv : s.currentPositionValid = true <;> simp [hv]

theorem traceCallback_hit {V : Type} [DecidableEq V] (air : V) (origin cursorPos : IVec3)
    (lockedAxis : LockedAxis) (r : PickResult) (s : RawSampler V) (h : s.voxel ≠ air) :
    SceneManager.traceCallback air origin lockedAxis cursorPos r s
      = (false, ⟨true, r.validPreviousPosition, s.position, r.previousPosition,
          SceneManager.hitFace
            ⟨origin.x - s.position.x, origin.y - s.position.y, origin.z - s.position.z⟩
            r.hitFace⟩) := by
  simp [SceneManager.traceCallback, h]

theorem getLast?_cons_eq {α : Type} (a : α) (l : List α) :
    (a :: l).getLast? = some (l.getLast?.getD a) := by
  cases l with
  | nil => rfl
  | cons b l => simp [List.getLast?_cons_cons, List.getLast?_eq_getLast]

/-- With no locked axis: the traversal result, `didHit` and `hitVoxel` after the
traversal, in terms of the first sample that is not air. -/
theorem traverse_unlocked_hit {V : Type} [DecidableEq V] (air : V) (origin cursorPos : IVec3)
    (samples : List (RawSampler V)) (r : PickResult) :
    match samples.find? (fun s => decide (s.voxel ≠ air)) with
    | some s =>
      (raycastTraverse (SceneManager.traceCallback air origin ⟨false, false, false⟩ cursorPos)
          samples r).1 = RaycastResult.Interupted ∧
        (raycastTraverse (SceneManager.traceCallback air origin ⟨false, false, false⟩ cursorPos)
          samples r).2.didHit = true ∧
        (raycastTraverse (SceneManager.traceCallback air origin ⟨false, false, false⟩ cursorPos)
          samples r).2.hitVoxel = s.position
    | none =>
      (raycastTraverse (SceneManager.traceCallback air origin ⟨false, false, false⟩ cursorPos)
          samples r).1 = RaycastResult.Completed ∧
        (raycastTraverse (SceneManager.traceCallback air origin ⟨false, false, false⟩ cursorPos)
          samples r).2.didHit = r.didHit ∧
        (raycastTraverse (SceneManager.traceCallback air origin ⟨false, false, false⟩ cursorPos)
          samples r).2.hitVoxel = r.hitVoxel := by
  induction samples generalizing r with
  | nil => simp [raycastTraverse]
  | cons s rest ih =>
    by_cases h : s.voxel = air
    · have hfind : (s :: rest).find? (fun s => decide (s.voxel ≠ air))
          = rest.find? (fun s => decide (s.voxel ≠ air)) := by
        simp [List.find?, h]
      have hstep : raycastTraverse
            (SceneManager.traceCallback air origin ⟨false, false, false⟩ cursorPos) (s :: rest) r
          = raycastTraverse
            (SceneManager.traceCallback air origin ⟨false, false, false⟩ cursorPos) rest
            (if s.currentPositionValid then
              ⟨r.didHit, true, r.hitVoxel, s.position, r.hitFace⟩ else r) := by
        simp [raycastTraverse, traceCallback_unlocked_air air origin cursorPos r s h]
      rw [hfind, hstep]
      have := ih (if s.currentPositionValid then
              ⟨r.didHit, true, r.hitVoxel, s.position, r.hitFace⟩ else r)
      by_cases hv : s.currentPositionValid = true <;> simpa [hv] using this
    · have hfind : (s :: rest).find? (fun s => decide (s.voxel ≠ air)) = some s := by
        simp [List.find?, h]
      rw [hfind]
      simp [raycastTraverse, traceCallback_hit air origin cursorPos ⟨false, false, false⟩ r s h]

/-- With no locked axis: `validPreviousPosition` and `previousPosition` after the
traversal, in terms of the last sample with a valid position among the air samples that
come before the first sample that is not air. -/
theorem traverse_unlocked_previous {V : Type} [DecidableEq V] (air : V)
    (origin cursorPos : IVec3) (samples : List (RawSampler V)) (r : PickResult) :
    match ((samples.takeWhile (fun s => decide (s.voxel = air))).filter
        (fun s => s.currentPositionValid)).getLast? with
    | some s =>
      (raycastTraverse (SceneManager.traceCallback air origin ⟨false, false, false⟩ cursorPos)
          samples r).2.validPreviousPosition = true ∧
        (raycastTraverse (SceneManager.traceCallback air origin ⟨false, false, false⟩ cursorPos)
          samples r).2.previousPosition = s.position
    | none =>
      (raycastTraverse (SceneManager.traceCallback air origin ⟨false, false, false⟩ cursorPos)
          samples r).2.validPreviousPosition = r.validPreviousPosition ∧
        (raycastTraverse (SceneManager.traceCallback air origin ⟨false, false, false⟩ cursorPos)
          samples r).2.previousPosition = r.previousPosition := by
  induction samples generalizing r with
  | nil => simp [raycastTraverse]
  | cons s rest ih =>
    by_cases h : s.voxel = air
    · have hstep : raycastTraverse
            (SceneManager.traceCallback air origin ⟨false, false, false⟩ cursorPos) (s :: rest) r
          = raycastTraverse
            (SceneManager.traceCallback air origin ⟨false, false, false⟩ cursorPos) rest
            (if s.currentPositionValid then
              ⟨r.didHit, true, r.hitVoxel, s.position, r.hitFace⟩ else r) := by
        simp [raycastTraverse, traceCallback_unlocked_air air origin cursorPos r s h]
      rw [hstep]
      have hih := ih (if s.currentPositionValid then
              ⟨r.didHit, true, r.hitVoxel, s.position, r.hitFace⟩ else r)
      by_cases hv : s.currentPositionValid = true
      · have hl : ((s :: rest).takeWhile (fun s => decide (s.voxel = air))).filter
              (fun s => s.currentPositionValid)
            = s :: ((rest.takeWhile (fun s => decide (s.voxel = air))).filter
              (fun s => s.currentPositionValid)) := by
          simp [List.takeWhile, List.filter, h, hv]
        rw [hl, getLast?_cons_eq]
        simp only [hv, if_true] at hih ⊢
        cases hg : ((rest.takeWhile (fun s => decide (s.voxel = air))).filter
              (fun s => s.currentPositionValid)).getLast? with
        | none =>
          rw [hg] at hih
          simpa using hih
        | some t =>
          rw [hg] at hih
          simpa using hih
      · have hl : ((s :: rest).takeWhile (fun s => decide (s.voxel = air))).filter
              (fun s => s.currentPositionValid)
            = (rest.takeWhile (fun s => decide (s.voxel = air))).filter
              (fun s => s.currentPositionValid) := by
          simp [List.takeWhile, List.filter, h, hv]
        rw [hl]
        simpa [hv] using hih
    · have hl : ((s :: rest).takeWhile (fun s => decide (s.voxel = air))).filter
            (fun s => s.currentPositionValid) = [] := by
        simp [List.takeWhile, h]
      rw [hl]
      simp [raycastTraverse, traceCallback_hit air origin cursorPos ⟨false, false, false⟩ r s h]

/-- With no locked axis the samples after the first one that is not air are not visited. -/
theorem traverse_unlocked_stops {V : Type} [DecidableEq V] (air : V) (origin cursorPos : IVec3)
    (before : List (RawSampler V)) (hit : RawSampler V) (after : List (RawSampler V))
    (r : PickResult) (hhit : hit.voxel ≠ air) :
    raycastTraverse (SceneManager.traceCallback air origin ⟨false, false, false⟩ cursorPos)
        (before ++ hit :: after) r
      = raycastTraverse (SceneManager.traceCallback air origin ⟨false, false, false⟩ cursorPos)
        (before ++ [hit]) r := by
  induction before generalizing r with
  | nil =>
    simp [raycastTraverse, traceCallback_hit air origin cursorPos ⟨false, false, false⟩ r hit hhit]
  | cons s rest ih =>
    rcases hcb : SceneManager.traceCallback air origin ⟨false, false, false⟩ cursorPos r s
      with ⟨b, r1⟩
    cases b
    · simp [raycastTraverse, hcb]
    · simp only [List.cons_append, raycastTraverse, hcb]
      exact ih r1

/-- C12: with no locked axis, `SceneManager::trace` over the samples visited along the ray
reports `didHit = true` and `hitVoxel` = the position of the first sample that is not air,
and stops the traversal there (the traversal is interrupted and the samples after the hit
do not matter); `previousPosition` is the position of the last sample with a valid
position visited before the hit, and `validPreviousPosition` is false if there is none;
if every visited sample is air, `didHit` is false. -/
theorem C12_trace_first_hit {V : Type} [DecidableEq V] (air : V)
    (ray : Option (List (RawSampler V))) (origin cursorPos : IVec3) (result : PickResult) :
    (match (ray.getD []).find? (fun s => decide (s.voxel ≠ air)) with
      | some s =>
        (SceneManager.traceRay air ray origin ⟨false, false, false⟩ cursorPos result).1
            = RaycastResult.Interupted ∧
          (SceneManager.traceRay air ray origin ⟨false, false, false⟩ cursorPos result).2.didHit
            = true ∧
          (SceneManager.traceRay air ray origin ⟨false, false, false⟩ cursorPos result).2.hitVoxel
            = s.position
      | none =>
        (SceneManager.traceRay air ray origin ⟨false, false, false⟩ cursorPos result).2.didHit
          = false) ∧
      (match (((ray.getD []).takeWhile (fun s => decide (s.voxel = air))).filter
          (fun s => s.currentPositionValid)).getLast? with
        | some s =>
          (SceneManager.traceRay air ray origin ⟨false, false, false⟩ cursorPos
              result).2.validPreviousPosition = true ∧
            (SceneManager.traceRay air ray origin ⟨false, false, false⟩ cursorPos
              result).2.previousPosition = s.position
        | none =>
          (SceneManager.traceRay air ray origin ⟨false, false, false⟩ cursorPos
            result).2.validPreviousPosition = false) ∧
      (∀ (before : List (RawSampler V)) (hit : RawSampler V) (after : List (RawSampler V)),
        hit.voxel ≠ air →
        SceneManager.traceRay air (some (before ++ hit :: after)) origin ⟨false, false, false⟩
            cursorPos result
          = SceneManager.traceRay air (some (before ++ [hit])) origin ⟨false, false, false⟩
            cursorPos result) := by
  refine ⟨?_, ?_, ?_⟩
  · cases ray with
    | none => simp [SceneManager.traceRay, raycastWithDirection]
    | some samples =>
      simp only [Option.getD_some, SceneManager.traceRay, raycastWithDirection]
      have h := traverse_unlocked_hit air origin cursorPos samples
        ⟨false, false, result.hitVoxel, result.previousPosition, FaceNames.NoOfFaces⟩
      cases hf : samples.find? (fun s => decide (s.voxel ≠ air)) with
      | none =>
        rw [hf] at h
        exact h.2.1
      | some s =>
        rw [hf] at h
        exact h
  · cases ray with
    | none => simp [SceneManager.traceRay, raycastWithDirection]
    | some samples =>
      simp only [Option.getD_some, SceneManager.traceRay, raycastWithDirection]
      have h := traverse_unlocked_previous air origin cursorPos samples
        ⟨false, false, result.hitVoxel, result.previousPosition, FaceNames.NoOfFaces⟩
      cases hf : ((samples.takeWhile (fun s => decide (s.voxel = air))).filter
          (fun s => s.currentPositionValid)).getLast? with
      | none =>
        rw [hf] at h
        exact h.1
      | some s =>
        rw [hf] at h
        exact h
  · intro before hit after hhit
    simp only [SceneManager.traceRay, raycastWithDirection]
    exact traverse_unlocked_stops air origin cursorPos before hit after _ hhit

theorem accessAge_cons (c d : IVec3) (hist : List IVec3) :
    PagedVolume.accessAge c (d :: hist)
      = if d = c then 0 else PagedVolume.accessAge c hist + 1 := rfl

theorem accessAge_inj (hist : List IVec3) (c d : IVec3) (hc : c ∈ hist)
    (h : PagedVolume.accessAge c hist = PagedVolume.accessAge d hist) : c = d := by
  induction hist with
  | nil => simp at hc
  | cons x rest ih =>
    rw [accessAge_cons, accessAge_cons] at h
    by_cases hxc : x = c
    · by_cases hxd : x = d
      · exact hxc.symm.trans hxd
      · rw [if_pos hxc, if_neg hxd] at h
        omega
    · by_cases hxd : x = d
      · rw [if_neg hxc, if_pos hxd] at h
        omega
      · simp only [hxc, hxd, if_false, Nat.add_right_cancel_iff] at h
        have hc2 : c ∈ rest := by
          rcases List.mem_cons.mp hc with h1 | h1
          · exact absurd h1.symm hxc
          · exact h1
        exact ih hc2 h

theorem leastRecentlyUsed_spec (l : List (IVec3 × Nat)) :
    (l ≠ [] → ∃ m, PagedVolume.leastRecentlyUsed l = some m) ∧
      ∀ m, PagedVolume.leastRecentlyUsed l = some m → m ∈ l ∧ ∀ e ∈ l, m.2 ≤ e.2 := by
  induction l with
  | nil => simp [PagedVolume.leastRecentlyUsed]
  | cons e rest ih =>
    obtain ⟨_, ih2⟩ := ih
    constructor
    · intro _
      simp only [PagedVolume.leastRecentlyUsed]
      cases PagedVolume.leastRecentlyUsed rest with
      | none => exact ⟨e, rfl⟩
      | some m =>
        by_cases h : e.2 ≤ m.2
        · exact ⟨e, by simp [h]⟩
        · exact ⟨m, by simp [h]⟩
    · intro m hm
      simp only [PagedVolume.leastRecentlyUsed] at hm
      cases hr : PagedVolume.leastRecentlyUsed rest with
      | none =>
        rw [hr] at hm
        simp only [Option.some.injEq] at hm
        subst hm
        have hnil : rest = [] := by
          cases rest with
          | nil => rfl
          | cons a l =>
            exfalso
            simp only [PagedVolume.leastRecentlyUsed] at hr
            cases hl : PagedVolume.leastRecentlyUsed l with
            | none => simp [hl] at hr
            | some b =>
              rw [hl] at hr
              by_cases hab : a.2 ≤ b.2 <;> simp [hab] at hr
        subst hnil
        simp
      | some m0 =>
        rw [hr] at hm
        obtain ⟨hmem, hmin⟩ := ih2 m0 hr
        by_cases h : e.2 ≤ m0.2
        · simp only [h, if_true, Option.some.injEq] at hm
          subst hm
          refine ⟨List.mem_cons_self _ _, ?_⟩
          intro f hf
          rcases List.mem_cons.mp hf with h1 | h1
          · rw [h1]
          · exact le_trans h (hmin f h1)
        · simp only [h, if_false, Option.some.injEq] at hm
          subst hm
          refine ⟨List.mem_cons_of_mem _ hmem, ?_⟩
          intro f hf
          rcases List.mem_cons.mp hf with h1 | h1
          · rw [h1]
            omega
          · exact hmin f h1

theorem isResident_iff (c : IVec3) (v : PagedVolume) :
    PagedVolume.isResident c v = true ↔ c ∈ v.resident.map Prod.fst := by
  simp [PagedVolume.isResident]

/-- The invariant after an access that stamps chunk `c` anew: every entry of the new
resident list is the new entry of `c` or an old entry of another chunk. -/
theorem inv_of_entries (v : PagedVolume) (hist : List IVec3) (c : IVec3)
    (newResident : List (IVec3 × Nat)) (hinv : PagedVolume.Inv v hist)
    (hnodup : (newResident.map Prod.fst).Nodup)
    (hentries : ∀ e ∈ newResident,
      e = (c, v.timestamper + 1) ∨ (e ∈ v.resident ∧ e.1 ≠ c))
    (hc : (c, v.timestamper + 1) ∈ newResident)
    (hlen : newResident.length ≤ v.budget) :
    PagedVolume.Inv ⟨v.budget, v.timestamper + 1, newResident, some c⟩ (c :: hist) := by
  obtain ⟨_, i2, i3, i4, _, _, _, i7⟩ := hinv
  refine ⟨hnodup, ?_, ?_, ?_, rfl, ?_, hlen, i7⟩
  · intro e he
    rcases hentries e he with h | ⟨h, _⟩
    · rw [h]
      exact List.mem_cons_self _ _
    · exact List.mem_cons_of_mem _ (i2 e h)
  · intro e he f hf
    rw [accessAge_cons, accessAge_cons]
    rcases hentries e he with h1 | ⟨h1, h1c⟩ <;> rcases hentries f hf with h2 | ⟨h2, h2c⟩
    · rw [h1, h2]
      simp
    · rw [h1]
      have := i4 f h2
      have hne : ¬ c = f.1 := fun h => h2c h.symm
      simp only [hne, if_false, if_true]
      constructor
      · intro h
        omega
      · intro h
        omega
    · rw [h2]
      have := i4 e h1
      have hne : ¬ c = e.1 := fun h => h1c h.symm
      simp only [hne, if_false, if_true]
      constructor
      · intro _
        omega
      · intro _
        omega
    · have hne1 : ¬ c = e.1 := fun h => h1c h.symm
      have hne2 : ¬ c = f.1 := fun h => h2c h.symm
      simp only [hne1, hne2, if_false, Nat.add_lt_add_iff_right]
      exact i3 e h1 f h2
  · intro e he
    rcases hentries e he with h | ⟨h, _⟩
    · rw [h]
    · have := i4 e h
      show e.2 ≤ v.timestamper + 1
      omega
  · intro d hd
    simp only [Option.some.injEq] at hd
    subst hd
    exact List.mem_map.mpr ⟨_, hc, rfl⟩

theorem map_fst_touch (c : IVec3) (stamp : Nat) (l : List (IVec3 × Nat)) :
    (PagedVolume.touch c stamp l).map Prod.fst = l.map Prod.fst := by
  induction l with
  | nil => rfl
  | cons e rest ih =>
    simp only [PagedVolume.touch, List.map_cons] at ih ⊢
    rw [ih]
    by_cases h : e.1 = c <;> simp [h]

/-- One chunk lookup keeps the residency invariant and the budget. -/
theorem getChunk_inv (c : IVec3) (v : PagedVolume) (hist : List IVec3)
    (hinv : PagedVolume.Inv v hist) :
    PagedVolume.Inv (PagedVolume.getChunk c v).1 (c :: hist) ∧
      (PagedVolume.getChunk c v).1.budget = v.budget := by
  have hinv0 := hinv
  obtain ⟨i1, i2, i3, i4, i5, i6, i7, i8⟩ := hinv
  unfold PagedVolume.getChunk
  by_cases hcache : v.lastAccessed = some c
  · simp only [hcache, if_true, and_true]
    have hhead : hist.head? = some c := by rw [← i5, hcache]
    obtain ⟨rest, hrest⟩ : ∃ rest, hist = c :: rest := by
      cases hist with
      | nil => simp at hhead
      | cons x rest =>
        simp only [List.head?_cons, Option.some.injEq] at hhead
        exact ⟨rest, by rw [hhead]⟩
    refine ⟨i1, ?_, ?_, i4, ?_, i6, i7, i8⟩
    · intro e he
      exact List.mem_cons_of_mem _ (i2 e he)
    · intro e he f hf
      have h := i3 e he f hf
      rw [hrest] at h ⊢
      simp only [accessAge_cons] at h ⊢
      generalize PagedVolume.accessAge e.1 rest = ae at h ⊢
      generalize PagedVolume.accessAge f.1 rest = af at h ⊢
      split_ifs at h ⊢ <;> omega
    · rw [hcache]
      rfl
  · simp only [hcache, if_false]
    by_cases hres : PagedVolume.isResident c v = true
    · simp only [hres, if_true, and_true]
      apply inv_of_entries v hist c _ hinv0
      · rw [map_fst_touch]
        exact i1
      · intro e he
        simp only [PagedVolume.touch, List.mem_map] at he
        obtain ⟨e0, he0, hee⟩ := he
        by_cases h : e0.1 = c
        · left
          rw [← hee]
          simp [h]
        · right
          rw [← hee]
          simp [h, he0]
      · have hmem := (isResident_iff c v).mp hres
        obtain ⟨e0, he0, hfst⟩ := List.mem_map.mp hmem
        simp only [PagedVolume.touch, List.mem_map]
        exact ⟨e0, he0, by simp [hfst]⟩
      · simp only [PagedVolume.touch, List.length_map]
        exact i7
    · have hres2 : PagedVolume.isResident c v = false := by simpa using hres
      simp only [hres2, Bool.false_eq_true, if_false]
      have hnot : c ∉ v.resident.map Prod.fst := fun h => hres ((isResident_iff c v).mpr h)
      have hnotmem : ∀ e ∈ v.resident, e.1 ≠ c := by
        intro e he h
        exact hnot (List.mem_map.mpr ⟨e, he, h⟩)
      by_cases hfull : v.budget ≤ v.resident.length
      · simp only [hfull, if_true]
        have hne : v.resident ≠ [] := by
          intro h
          rw [h] at hfull
          simp only [List.length_nil, Nat.le_zero_eq] at hfull
          omega
        obtain ⟨m, hm⟩ := (leastRecentlyUsed_spec v.resident).1 hne
        obtain ⟨hmmem, _⟩ := (leastRecentlyUsed_spec v.resident).2 m hm
        simp only [hm, and_true]
        apply inv_of_entries v hist c _ hinv0
        · simp only [List.map_cons, List.nodup_cons]
          constructor
          · intro h
            obtain ⟨e, he, hfst⟩ := List.mem_map.mp h
            exact hnotmem e (List.mem_of_mem_erase he) hfst
          · exact List.Nodup.sublist ((List.erase_sublist m v.resident).map Prod.fst) i1
        · intro e he
          rcases List.mem_cons.mp he with h | h
          · exact Or.inl h
          · exact Or.inr ⟨List.mem_of_mem_erase h, hnotmem e (List.mem_of_mem_erase h)⟩
        · exact List.mem_cons_self _ _
        · simp only [List.length_cons, List.length_erase_of_mem hmmem]
          have : 0 < v.resident.length := List.length_pos.mpr hne
          omega
      · simp only [hfull, if_false, and_true]
        apply inv_of_entries v hist c _ hinv0
        · simp only [List.map_cons, List.nodup_cons]
          exact ⟨hnot, i1⟩
        · intro e he
          rcases List.mem_cons.mp he with h | h
          · exact Or.inl h
          · exact Or.inr ⟨h, hnotmem e h⟩
        · exact List.mem_cons_self _ _
        · simp only [List.length_cons]
          omega

theorem inv_empty (budget : Nat) (h : 0 < budget) :
    PagedVolume.Inv (PagedVolume.empty budget) [] := by
  simp [PagedVolume.Inv, PagedVolume.empty, h]

theorem run_inv (chunkOf : IVec3 → IVec3) (accesses : List PagedVolume.Access) :
    ∀ (v : PagedVolume) (hist : List IVec3), PagedVolume.Inv v hist →
      PagedVolume.Inv (PagedVolume.run chunkOf accesses v)
          (PagedVolume.history chunkOf accesses ++ hist) ∧
        (PagedVolume.run chunkOf accesses v).budget = v.budget := by
  induction accesses with
  | nil =>
    intro v hist h
    simpa [PagedVolume.run, PagedVolume.history] using h
  | cons a rest ih =>
    intro v hist h
    obtain ⟨h1, h2⟩ := getChunk_inv (chunkOf a.pos) v hist h
    obtain ⟨h3, h4⟩ := ih (PagedVolume.step chunkOf a v).1 (chunkOf a.pos :: hist) h1
    have hh : PagedVolume.history chunkOf (a :: rest) ++ hist
        = PagedVolume.history chunkOf rest ++ (chunkOf a.pos :: hist) := by
      simp [PagedVolume.history]
    rw [hh]
    exact ⟨h3, by rw [PagedVolume.run, h4]; exact h2⟩

/-- A page-in at capacity pages out exactly one chunk first, the resident chunk whose
last access is the oldest. -/
theorem getChunk_evicts_lru (c : IVec3) (v : PagedVolume) (hist : List IVec3)
    (hinv : PagedVolume.Inv v hist) (hres : PagedVolume.isResident c v = false)
    (hfull : v.resident.length = v.budget) :
    ∃ m : IVec3, (PagedVolume.getChunk c v).2 = [PagerEvent.pageOut m, PagerEvent.pageIn c] ∧
      PagedVolume.isResident m v = true ∧
      ∀ d : IVec3, PagedVolume.isResident d v = true → d ≠ m →
        PagedVolume.accessAge d hist < PagedVolume.accessAge m hist := by
  obtain ⟨_, i2, i3, _, _, i6, _, i8⟩ := hinv
  have hcache : ¬ v.lastAccessed = some c := by
    intro h
    have := (isResident_iff c v).mpr (i6 c h)
    rw [hres] at this
    exact absurd this (by simp)
  have hne : v.resident ≠ [] := by
    intro h
    rw [h] at hfull
    simp only [List.length_nil] at hfull
    omega
  obtain ⟨m, hm⟩ := (leastRecentlyUsed_spec v.resident).1 hne
  obtain ⟨hmmem, hmin⟩ := (leastRecentlyUsed_spec v.resident).2 m hm
  refine ⟨m.1, ?_, ?_, ?_⟩
  · simp [PagedVolume.getChunk, hcache, hres, hfull, hm]
  · exact (isResident_iff m.1 v).mpr (List.mem_map.mpr ⟨m, hmmem, rfl⟩)
  · intro d hd hdm
    obtain ⟨f, hf, hfd⟩ := List.mem_map.mp ((isResident_iff d v).mp hd)
    subst hfd
    have hle := hmin f hf
    have hiff := i3 m hmmem f hf
    have hiff2 := i3 f hf m hmmem
    by_cases hlt : m.2 < f.2
    · exact hiff.mp hlt
    · exfalso
      have heq : m.2 = f.2 := by omega
      have h1 : ¬ PagedVolume.accessAge f.1 hist < PagedVolume.accessAge m.1 hist :=
        fun h => hlt (hiff.mpr h)
      have h2 : ¬ PagedVolume.accessAge m.1 hist < PagedVolume.accessAge f.1 hist := by
        intro h
        have := hiff2.mpr h
        omega
      have hage : PagedVolume.accessAge f.1 hist = PagedVolume.accessAge m.1 hist := by omega
      exact hdm (accessAge_inj hist f.1 m.1 (i2 f hf) hage)

/-- C13: with a positive budget, after every sequence of `voxelAt`/`setVoxel` accesses to
a new volume the number of resident chunks does not exceed the configured budget, and
whenever a page-in would exceed it (the accessed chunk is absent and the resident set is
full), exactly one chunk is paged out first, and it is the resident chunk that was
accessed least recently. -/
theorem C13_resident_budget_lru (chunkOf : IVec3 → IVec3) (budget : Nat)
    (hbudget : 0 < budget) (accesses : List PagedVolume.Access) :
    (PagedVolume.run chunkOf accesses (PagedVolume.empty budget)).resident.length ≤ budget ∧
      ∀ a : PagedVolume.Access,
        PagedVolume.isResident (chunkOf a.pos)
          (PagedVolume.run chunkOf accesses (PagedVolume.empty budget)) = false →
        (PagedVolume.run chunkOf accesses (PagedVolume.empty budget)).resident.length
          = budget →
        ∃ m : IVec3,
          (PagedVolume.step chunkOf a
            (PagedVolume.run chunkOf accesses (PagedVolume.empty budget))).2
            = [PagerEvent.pageOut m, PagerEvent.pageIn (chunkOf a.pos)] ∧
          PagedVolume.isResident m
            (PagedVolume.run chunkOf accesses (PagedVolume.empty budget)) = true ∧
          ∀ d : IVec3,
            PagedVolume.isResident d
              (PagedVolume.run chunkOf accesses (PagedVolume.empty budget)) = true →
            d ≠ m →
            PagedVolume.accessAge d (PagedVolume.history chunkOf accesses)
              < PagedVolume.accessAge m (PagedVolume.history chunkOf accesses) := by
  obtain ⟨hinv, hb⟩ := run_inv chunkOf accesses (PagedVolume.empty budget) []
    (inv_empty budget hbudget)
  rw [List.append_nil] at hinv
  have hb2 : (PagedVolume.run chunkOf accesses (PagedVolume.empty budget)).budget = budget := hb
  constructor
  · have := hinv.2.2.2.2.2.2.1
    rw [hb2] at this
    exact this
  · intro a hres hfull
    exact getChunk_evicts_lru (chunkOf a.pos) _ _ hinv hres (by rw [hb2]; exact hfull)

/-- C13 (witness): budget 2 and the accesses to the chunks 1, 2, 1: the resident set is
full, and the access to chunk 3 pages out chunk 2, not the older but re-accessed chunk 1. -/
theorem C13_resident_budget_lru_witness :
    0 < 2 ∧
      (PagedVolume.run (fun p => p)
        [PagedVolume.Access.voxelAt ⟨1, 0, 0⟩, PagedVolume.Access.setVoxel ⟨2, 0, 0⟩,
          PagedVolume.Access.voxelAt ⟨1, 0, 0⟩] (PagedVolume.empty 2)).resident.length ≤ 2 ∧
      (PagedVolume.step (fun p => p) (PagedVolume.Access.voxelAt ⟨3, 0, 0⟩)
        (PagedVolume.run (fun p => p)
          [PagedVolume.Access.voxelAt ⟨1, 0, 0⟩, PagedVolume.Access.setVoxel ⟨2, 0, 0⟩,
            PagedVolume.Access.voxelAt ⟨1, 0, 0⟩] (PagedVolume.empty 2))).2
        = [PagerEvent.pageOut ⟨2, 0, 0⟩, PagerEvent.pageIn ⟨3, 0, 0⟩] :=
  ⟨by decide,
    (C13_resident_budget_lru (fun p => p) 2 (by decide)
      [PagedVolume.Access.voxelAt ⟨1, 0, 0⟩, PagedVolume.Access.setVoxel ⟨2, 0, 0⟩,
        PagedVolume.Access.voxelAt ⟨1, 0, 0⟩]).1,
    by decide⟩

/-- C15 (code at the failing input): with three running events of which the first two
return false from `update(dt)`, `EventMgr::update` calls `update(dt)` on the first and the
third only; the second is skipped, never updated and still in `_events`.  With a single
event that returns false the loop increments the end iterator. -/
theorem C15_update_skips_after_erase :
    EventMgr.update [⟨1, false⟩, ⟨2, false⟩, ⟨3, true⟩]
        = some ⟨[1, 3], [1], [⟨2, false⟩, ⟨3, true⟩]⟩ ∧
      EventMgr.update [⟨1, false⟩] = none := by
  decide

/-- The loop of `extractVolume`: it stops at an index `k` between `i` and `x`, beyond `i`
when `i < x`, and calls `extract` on the `k - i` entries in front, in order. -/
theorem extractLoop_spec {R : Type} (dims : R → IVec3) (x : Nat)
    (rest : List (SceneManager.ExtractRegion R)) :
    ∀ (i : Nat) (lastLayer : Int), i ≤ x → x - i ≤ rest.length →
      i ≤ (SceneManager.extractLoop dims x i lastLayer rest).2 ∧
      (SceneManager.extractLoop dims x i lastLayer rest).2 ≤ x ∧
      (i < x → i < (SceneManager.extractLoop dims x i lastLayer rest).2) ∧
      (SceneManager.extractLoop dims x i lastLayer rest).1.map (fun c => (c.layer, c.region))
        = (rest.take ((SceneManager.extractLoop dims x i lastLayer rest).2 - i)).map
            (fun e => (e.layer, e.region)) := by
  induction rest with
  | nil =>
    intro i lastLayer hi hlen
    simp only [List.length_nil] at hlen
    have : i = x := by omega
    subst this
    simp [SceneManager.extractLoop]
  | cons entry rest ih =>
    intro i lastLayer hi hlen
    by_cases hix : i < x
    · by_cases hbig : SceneManager.bigRegion (dims entry.region) = true
      · simp only [SceneManager.extractLoop, hix, hbig, if_true]
        refine ⟨by omega, by omega, fun _ => by omega, ?_⟩
        simp
      · simp only [List.length_cons] at hlen
        obtain ⟨h1, h2, h3, h4⟩ := ih (i + 1) entry.layer (by omega) (by omega)
        simp only [SceneManager.extractLoop, hix, hbig, if_true]
        simp only [Bool.false_eq_true, if_false]
        refine ⟨by omega, h2, fun _ => by omega, ?_⟩
        have hk : (SceneManager.extractLoop dims x (i + 1) entry.layer rest).2 - i
            = ((SceneManager.extractLoop dims x (i + 1) entry.layer rest).2 - (i + 1)) + 1 := by
          omega
        rw [hk]
        simp [List.take, h4]
    · have : i = x := by omega
      subst this
      simp [SceneManager.extractLoop]

/-- C17: `SceneManager::extractVolume` returns false and changes nothing (no region is
extracted, the queue stays as it is) when no regions are queued; otherwise it extracts `k`
regions taken from the front of the queue with `1 ≤ k ≤ min(4, n)`, removes exactly those
`k` entries, leaves the remaining `n - k` entries in their order and returns true. -/
theorem C17_extractVolume_front {R : Type} (dims : R → IVec3) :
    SceneManager.extractVolume dims [] = (false, [], []) ∧
      ∀ q : List (SceneManager.ExtractRegion R), q ≠ [] →
        ∃ k : Nat, 1 ≤ k ∧ k ≤ min 4 q.length ∧
          (SceneManager.extractVolume dims q).1 = true ∧
          (SceneManager.extractVolume dims q).2.1.length = k ∧
          (SceneManager.extractVolume dims q).2.1.map (fun c => (c.layer, c.region))
            = (q.take k).map (fun e => (e.layer, e.region)) ∧
          (SceneManager.extractVolume dims q).2.2 = q.drop k ∧
          (SceneManager.extractVolume dims q).2.2.length = q.length - k := by
  refine ⟨rfl, ?_⟩
  intro q hq
  have hlen : 0 < q.length := List.length_pos.mpr hq
  have hx : 1 ≤ min 4 q.length := by omega
  obtain ⟨_, h2, h3, h4⟩ := extractLoop_spec dims (min 4 q.length) q 0 (-1)
    (by omega) (by omega)
  have h3 := h3 (by omega)
  refine ⟨(SceneManager.extractLoop dims (min 4 q.length) 0 (-1) q).2, by omega, h2, ?_, ?_, ?_,
    ?_, ?_⟩
  · simp [SceneManager.extractVolume, hlen]
  · have hl := congrArg List.length h4
    simp only [List.length_map, List.length_take, Nat.sub_zero] at hl
    simp only [SceneManager.extractVolume, hlen, if_true]
    rw [hl]
    omega
  · simp only [SceneManager.extractVolume, hlen, if_true]
    simpa using h4
  · simp [SceneManager.extractVolume, hlen]
  · simp [SceneManager.extractVolume, hlen]

/-- C18 (code at the failing input): with the queue (layer 0, layer 0, layer 1) of small
regions, `SceneManager::extractVolume` extracts the second region, the last one of
layer 0, with `updateBuffers = false`. -/
theorem C18_extractVolume_stale_layer :
    (SceneManager.extractVolume (fun r : IVec3 => r)
        [⟨0, ⟨1, 1, 1⟩⟩, ⟨0, ⟨2, 2, 2⟩⟩, ⟨1, ⟨3, 3, 3⟩⟩]).2.1
      = [⟨0, ⟨1, 1, 1⟩, true⟩, ⟨0, ⟨2, 2, 2⟩, false⟩, ⟨1, ⟨3, 3, 3⟩, true⟩] := by
  decide

/-- C19 (code for every four arguments): the `noise` command parses the octaves, the
lacunarity, the frequency and the gain all from the first argument; the second, third
and fourth argument are not read. -/
theorem C19_noise_reads_first_argument {F : Type} (toInt : String → Int)
    (toFloat : String → F) (a b c d : String) :
    SceneManager.noiseCommand toInt toFloat [a, b, c, d]
      = some ⟨toInt a, toFloat a, toFloat a, toFloat a⟩ := by
  rfl

/-- One frame while the pending next state has a blocker: the app is put or kept in
`Blocked` and only `onAfterFrame` is called. -/
theorem onFrame_blocked (run : Callback → App → AppState × App) (app : App)
    (hpending : app.nextState ≠ AppState.InvalidAppState)
    (hblock : app.blockers app.nextState = true)
    (hcur : app.curState = AppState.Blocked ∨ app.nextState ≠ app.curState)
    (hafter : ∀ a : App, (run Callback.onAfterFrame a).2 = a) :
    App.onFrame run app
      = (⟨AppState.Blocked, app.nextState, app.blockers, app.exitCode⟩,
          [Callback.onAfterFrame]) := by
  obtain ⟨cur, next, blockers, exitCode⟩ := app
  simp only at hpending hblock hcur
  have happly : App.applyNextState ⟨cur, next, blockers, exitCode⟩
      = ⟨AppState.Blocked, next, blockers, exitCode⟩ := by
    unfold App.applyNextState
    by_cases hb : cur = AppState.Blocked
    · subst hb
      by_cases hne : next = AppState.Blocked
      · simp [hne]
      · simp [hpending, hne, hblock]
    · have hne : next ≠ cur := by
        rcases hcur with h | h
        · exact absurd h hb
        · exact h
      have hb2 : ¬ AppState.Blocked = cur := fun h => hb h.symm
      simp [hpending, hne, hblock, hb2]
  unfold App.onFrame
  simp only [happly, App.runState, if_true, hafter, List.nil_append]

theorem frames_blocked (run : Callback → App → AppState × App)
    (hafter : ∀ a : App, (run Callback.onAfterFrame a).2 = a) (n : Nat) :
    ∀ app : App, app.nextState ≠ AppState.InvalidAppState →
      app.blockers app.nextState = true →
      (app.curState = AppState.Blocked ∨ app.nextState ≠ app.curState) →
      App.frames run (n + 1) app
        = (⟨AppState.Blocked, app.nextState, app.blockers, app.exitCode⟩,
            List.replicate (n + 1) Callback.onAfterFrame) := by
  induction n with
  | zero =>
    intro app hp hb hc
    simp [App.frames, onFrame_blocked run app hp hb hc hafter]
  | succ n ih =>
    intro app hp hb hc
    have h1 := onFrame_blocked run app hp hb hc hafter
    have h2 := ih ⟨AppState.Blocked, app.nextState, app.blockers, app.exitCode⟩ hp hb
      (Or.inl rfl)
    rw [App.frames]
    simp only [h1, h2]
    rfl

/-- The `switch` of `App::onFrame` calls the lifecycle method of the current state and
none of the other lifecycle methods. -/
theorem runState_lifecycle (run : Callback → App → AppState × App) (app : App) :
    (∀ c : Callback, App.lifecycleCallback app.curState = some c →
        c ∈ (App.runState run app).2) ∧
      (∀ c : Callback, c ∈ (App.runState run app).2 →
        c ∈ [Callback.onConstruct, Callback.onInit, Callback.onRunning, Callback.onCleanup,
          Callback.onDestroy] →
        App.lifecycleCallback app.curState = some c) := by
  obtain ⟨cur, next, blockers, exitCode⟩ := app
  cases cur
  case Running =>
    constructor
    · intro c hc
      simp only [App.lifecycleCallback, Option.some.injEq] at hc
      subst hc
      simp only [App.runState, reduceCtorEq, if_false]
      split_ifs <;> simp
    · intro c hc hl
      simp only [App.runState, reduceCtorEq, if_false] at hc
      simp only [App.lifecycleCallback, Option.some.injEq]
      split_ifs at hc <;> simp at hc <;> rcases hc with rfl | rfl | rfl <;> simp at hl ⊢
  all_goals
    constructor
    · intro c hc
      simp only [App.lifecycleCallback, Option.some.injEq] at hc
      first
        | (subst hc; simp [App.runState])
        | simp at hc
    · intro c hc hl
      simp only [App.runState, reduceCtorEq, if_false, if_true, List.mem_cons,
        List.mem_singleton, List.not_mem_nil, or_false] at hc <;>
      first
        | exact absurd hc id
        | (subst hc; simp [App.lifecycleCallback] at hl ⊢)
        | (rcases hc with rfl | rfl | rfl <;> simp [App.lifecycleCallback] at hl ⊢)

/-- The frame after `remBlocker` for the pending next state `N`: the state switch makes
`N` the current state, and the lifecycle method of `N` is the one that is called. -/
theorem onFrame_unblocked (run : Callback → App → AppState × App) (a : App)
    (hpending : a.nextState ≠ AppState.InvalidAppState)
    (hcur : a.curState = AppState.Blocked ∨ a.nextState ≠ a.curState) :
    (App.applyNextState (App.remBlocker a.nextState a)).curState = a.nextState ∧
      (∀ c : Callback, App.lifecycleCallback a.nextState = some c →
        c ∈ (App.onFrame run (App.remBlocker a.nextState a)).2) ∧
      (∀ c : Callback, c ∈ (App.onFrame run (App.remBlocker a.nextState a)).2 →
        c ∈ [Callback.onConstruct, Callback.onInit, Callback.onRunning, Callback.onCleanup,
          Callback.onDestroy] →
        App.lifecycleCallback a.nextState = some c) := by
  obtain ⟨cur, next, blockers, exitCode⟩ := a
  simp only at hpending hcur
  have hstate : (App.applyNextState
      (App.remBlocker next ⟨cur, next, blockers, exitCode⟩)).curState = next := by
    by_cases hne : next = cur
    · simp [App.applyNextState, App.remBlocker, hne]
    · simp [App.applyNextState, App.remBlocker, hpending, hne]
  obtain ⟨h1, h2⟩ := runState_lifecycle run
    (App.applyNextState (App.remBlocker next ⟨cur, next, blockers, exitCode⟩))
  rw [hstate] at h1 h2
  refine ⟨hstate, ?_, ?_⟩
  · intro c hc
    simp only [App.onFrame, List.mem_append]
    exact Or.inl (h1 c hc)
  · intro c hc hl
    simp only [App.onFrame, List.mem_append, List.mem_singleton] at hc
    rcases hc with hc | hc
    · exact h2 c hc hl
    · subst hc
      simp at hl

/-- C20: if a blocker is registered for the pending next state `N` and `N` differs from
the current state, every `App::onFrame` call puts or keeps the app in `AppState::Blocked`,
calls none of the lifecycle methods (only `onAfterFrame`, taken not to touch the state
machine) and leaves the pending next state `N` unchanged; after `remBlocker(N)` the
following `onFrame` makes `N` the current state in its state switch and calls the
lifecycle method of `N` and no other lifecycle method. -/
theorem C20_blocker_holds_state (run : Callback → App → AppState × App) (app : App)
    (N : AppState) (hN : app.nextState = N) (hpending : N ≠ AppState.InvalidAppState)
    (hdiff : N ≠ app.curState) (hblock : app.blockers N = true)
    (hafter : ∀ a : App, (run Callback.onAfterFrame a).2 = a) :
    (∀ n : Nat,
        (App.frames run (n + 1) app).1.curState = AppState.Blocked ∧
        (App.frames run (n + 1) app).1.nextState = N ∧
        (App.frames run (n + 1) app).1.blockers = app.blockers ∧
        (App.frames run (n + 1) app).2 = List.replicate (n + 1) Callback.onAfterFrame) ∧
      (∀ n : Nat,
        (App.applyNextState (App.remBlocker N (App.frames run n app).1)).curState = N ∧
        (∀ c : Callback, App.lifecycleCallback N = some c →
          c ∈ (App.onFrame run (App.remBlocker N (App.frames run n app).1)).2) ∧
        (∀ c : Callback,
          c ∈ (App.onFrame run (App.remBlocker N (App.frames run n app).1)).2 →
          c ∈ [Callback.onConstruct, Callback.onInit, Callback.onRunning, Callback.onCleanup,
            Callback.onDestroy] →
          App.lifecycleCallback N = some c)) := by
  subst hN
  have hframes := fun n => frames_blocked run hafter n app hpending hblock (Or.inr hdiff)
  constructor
  · intro n
    rw [hframes n]
    exact ⟨rfl, rfl, rfl, rfl⟩
  · intro n
    cases n with
    | zero => exact onFrame_unblocked run app hpending (Or.inr hdiff)
    | succ n =>
      rw [hframes n]
      exact onFrame_unblocked run
        ⟨AppState.Blocked, app.nextState, app.blockers, app.exitCode⟩ hpending (Or.inl rfl)

/-- C20 (witness): an app in `Cleanup` whose pending next state `Init` has a blocker, as
the suspend branch of `App::onCleanup` leaves it; after three frames it is `Blocked`,
and the frame after `remBlocker(Init)` calls `onInit`. -/
theorem C20_blocker_holds_state_witness :
    AppState.Init ≠ AppState.InvalidAppState ∧ AppState.Init ≠ AppState.Cleanup ∧
      (∀ a : App, ((fun (_ : Callback) (b : App) => (AppState.Running, b))
        Callback.onAfterFrame a).2 = a) ∧
      (App.frames (fun _ b => (AppState.Running, b)) 3
        ⟨AppState.Cleanup, AppState.Init, fun s => decide (s = AppState.Init), 0⟩).1.curState
        = AppState.Blocked ∧
      Callback.onInit ∈ (App.onFrame (fun _ b => (AppState.Running, b))
        (App.remBlocker AppState.Init
          (App.frames (fun _ b => (AppState.Running, b)) 3
            ⟨AppState.Cleanup, AppState.Init, fun s => decide (s = AppState.Init),
              0⟩).1)).2 :=
  ⟨by decide, by decide, fun _ => rfl,
    ((C20_blocker_holds_state (fun _ b => (AppState.Running, b))
      ⟨AppState.Cleanup, AppState.Init, fun s => decide (s = AppState.Init), 0⟩
      AppState.Init rfl (by decide) (by decide) (by decide) (fun _ => rfl)).1 2).1,
    ((C20_blocker_holds_state (fun _ b => (AppState.Running, b))
      ⟨AppState.Cleanup, AppState.Init, fun s => decide (s = AppState.Init), 0⟩
      AppState.Init rfl (by decide) (by decide) (by decide) (fun _ => rfl)).2 3).2.1
      Callback.onInit rfl⟩

/-- A tile coordinate inside the exactly representable range is a fixed point of one axis
of `WorldMgr::meshPos`. -/
theorem meshAxis_fixed (s t : Int) (hs0 : 0 < s) (hs : s ≤ 2 ^ 24) (ht : |t| ≤ 2 ^ 24)
    (hdvd : s ∣ t) : WorldMgr.meshAxis s t = t := by
  have hx : Float32.toInt (Float32.floor (Float32.div (Float32.ofInt t) (Float32.ofInt s)))
      = t / s := chunkAxis_eq_ediv s t hs0 hs ht
  have hmul : t / s * s = t := Int.ediv_mul_cancel hdvd
  have hq : |t / s| ≤ 2 ^ 24 := by
    have hle : |t / s| ≤ |t / s| * s := le_mul_of_one_le_right (abs_nonneg _) (by omega)
    have : |t / s * s| = |t / s| * s := by rw [abs_mul, abs_of_pos hs0]
    rw [hmul] at this
    omega
  have hvs : Float32.val (Float32.ofInt s) = s :=
    val_ofInt s (by rw [abs_of_pos hs0]; exact hs)
  have hvx : Float32.val (Float32.ofInt (t / s)) = ((t / s : Int) : ℚ) := val_ofInt _ hq
  unfold WorldMgr.meshAxis
  simp only
  rw [hx]
  apply toInt_of_val_int
  apply val_mul_exact _ _ _ _ ht
  rw [hvs, hvx, ← hmul]
  push_cast
  rw [Int.mul_ediv_cancel _ hs0.ne.symm]

/-- One axis of `WorldMgr::meshPos` applied twice, inside the exactly representable range. -/
theorem meshAxis_idempotent (s c : Int) (hs0 : 0 < s) (h : |c| + s ≤ 2 ^ 24) :
    WorldMgr.meshAxis s (WorldMgr.meshAxis s c) = WorldMgr.meshAxis s c := by
  have habs := abs_nonneg c
  have h1 := Int.emod_add_ediv c s
  have h2 := Int.emod_nonneg c hs0.ne.symm
  have h3 := Int.emod_lt_of_pos c hs0
  have hcs := abs_le.mp (le_refl |c|)
  have hprod : |c / s * s| ≤ 2 ^ 24 := by
    rw [abs_le]
    constructor <;> nlinarith
  rw [meshAxis_eq_ediv_mul s c hs0 h]
  exact meshAxis_fixed s (c / s * s) hs0 (by omega) hprod (Dvd.intro_left _ rfl)

/-- C21 (counterexample): with tile size 3 on every axis `WorldMgr::meshPos` maps
x = 16777222 to 16777220 (the product 5592407 * 3 = 16777221 is rounded), and maps
16777220 to 16777218: applying it twice differs from applying it once. -/
theorem C21_meshPos_large_not_idempotent :
    WorldMgr.meshPos ⟨3, 3, 3⟩ ⟨16777222, 0, 0⟩ = ⟨16777220, 0, 0⟩ ∧
      WorldMgr.meshPos ⟨3, 3, 3⟩ ⟨16777220, 0, 0⟩ = ⟨16777218, 0, 0⟩ ∧
      WorldMgr.meshPos ⟨3, 3, 3⟩ (WorldMgr.meshPos ⟨3, 3, 3⟩ ⟨16777222, 0, 0⟩)
        ≠ WorldMgr.meshPos ⟨3, 3, 3⟩ ⟨16777222, 0, 0⟩ := by
  decide

/-- C21 (amended): for every tile size `s` with positive components and every world
position `p` with `|p| + s ≤ 2^24` on each axis, `WorldMgr::meshPos` is idempotent:
`meshPos(meshPos(p)) = meshPos(p)`. -/
theorem C21_meshPos_idempotent (s p : IVec3) (hsx : 0 < s.x) (hsy : 0 < s.y) (hsz : 0 < s.z)
    (hx : |p.x| + s.x ≤ 2 ^ 24) (hy : |p.y| + s.y ≤ 2 ^ 24) (hz : |p.z| + s.z ≤ 2 ^ 24) :
    WorldMgr.meshPos s (WorldMgr.meshPos s p) = WorldMgr.meshPos s p := by
  unfold WorldMgr.meshPos
  simp only
  rw [meshAxis_idempotent s.x p.x hsx hx, meshAxis_idempotent s.y p.y hsy hy,
    meshAxis_idempotent s.z p.z hsz hz]

/-- C21 (witness): 32-unit tiles and the position (-1, 33, 0): its tile (-32, 32, 0) is
mapped to itself. -/
theorem C21_meshPos_idempotent_witness :
    WorldMgr.meshPos ⟨32, 32, 32⟩ ⟨-1, 33, 0⟩ = ⟨-32, 32, 0⟩ ∧
      WorldMgr.meshPos ⟨32, 32, 32⟩ (WorldMgr.meshPos ⟨32, 32, 32⟩ ⟨-1, 33, 0⟩)
        = WorldMgr.meshPos ⟨32, 32, 32⟩ ⟨-1, 33, 0⟩ :=
  ⟨by decide,
    C21_meshPos_idempotent ⟨32, 32, 32⟩ ⟨-1, 33, 0⟩ (by decide) (by decide) (by decide)
      (by decide) (by decide) (by decide)⟩

/-- A successful search of `App::getArgVal`: the match is the first one from the start
and the result is the element after it. -/
theorem findArgFrom_spec (isArg : String → Bool) (l : List String) :
    ∀ (i j : Nat) (v : String), App.findArgFrom isArg i l = some (j, v) →
      ∃ (k : Nat) (a : String), j = i + k + 1 ∧ l[k]? = some a ∧ isArg a = true ∧
        l[k + 1]? = some v ∧ ∀ k2 : Nat, k2 < k → ∀ b, l[k2]? = some b → isArg b = false := by
  induction l with
  | nil =>
    intro i j v h
    simp [App.findArgFrom] at h
  | cons a t ih =>
    intro i j v h
    cases t with
    | nil => simp [App.findArgFrom] at h
    | cons b rest =>
      by_cases hp : isArg a = true
      · simp only [App.findArgFrom, hp, if_true, Option.some.injEq, Prod.mk.injEq] at h
        obtain ⟨rfl, rfl⟩ := h
        exact ⟨0, a, rfl, rfl, hp, by simp, fun k2 hk => absurd hk (Nat.not_lt_zero k2)⟩
      · simp only [App.findArgFrom, hp, Bool.false_eq_true, if_false] at h
        obtain ⟨k, c, hj, hk, hc, hv, hfirst⟩ := ih (i + 1) j v h
        refine ⟨k + 1, c, by omega, by simpa using hk, hc, by simpa using hv, ?_⟩
        intro k2 hk2 d hd
        cases k2 with
        | zero =>
          simp only [List.getElem?_cons_zero, Option.some.injEq] at hd
          rw [← hd]
          simpa using hp
        | succ k2 =>
          exact hfirst k2 (by omega) d (by simpa using hd)

theorem findArgFrom_congr (p q : String → Bool) (l : List String)
    (h : ∀ s ∈ l, p s = q s) : ∀ i : Nat, App.findArgFrom p i l = App.findArgFrom q i l := by
  induction l with
  | nil =>
    intro i
    simp [App.findArgFrom]
  | cons a t ih =>
    intro i
    cases t with
    | nil => simp [App.findArgFrom]
    | cons b rest =>
      have ha : p a = q a := h a (List.mem_cons_self _ _)
      have ht := ih (fun s hs => h s (List.mem_cons_of_mem _ hs)) (i + 1)
      simp only [App.findArgFrom, ha, ht]

/-- The search for `-I` against the values after the `-I` occurrences. -/
theorem findArgFrom_valuesAfterI (l : List String) :
    ∀ i : Nat,
      match App.findArgFrom (fun s => decide ("-I" = s)) i l with
      | none => ComputeShaderTool.valuesAfterI l = []
      | some (j, v) =>
        ∃ rest, l.drop (j - i) = v :: rest ∧
          ComputeShaderTool.valuesAfterI l = v :: ComputeShaderTool.valuesAfterI (v :: rest) := by
  induction l with
  | nil =>
    intro i
    simp [App.findArgFrom, ComputeShaderTool.valuesAfterI]
  | cons a t ih =>
    intro i
    cases t with
    | nil => simp [App.findArgFrom, ComputeShaderTool.valuesAfterI]
    | cons b rest =>
      by_cases hp : a = "-I"
      · subst hp
        simp [App.findArgFrom, ComputeShaderTool.valuesAfterI]
      · have hp2 : ¬ "-I" = a := fun h => hp h.symm
        have h := ih (i + 1)
        simp only [App.findArgFrom, hp2, decide_False, Bool.false_eq_true, if_false]
        cases hf : App.findArgFrom (fun s => decide ("-I" = s)) (i + 1) (b :: rest) with
        | none =>
          rw [hf] at h
          simpa [ComputeShaderTool.valuesAfterI, hp] using h
        | some r =>
          obtain ⟨j, v⟩ := r
          rw [hf] at h
          obtain ⟨rest2, h1, h2⟩ := h
          obtain ⟨k, _, hj, _⟩ := findArgFrom_spec _ _ _ _ _ hf
          refine ⟨rest2, ?_, ?_⟩
          · have e1 : j - i = (j - (i + 1)) + 1 := by omega
            rw [e1, List.drop_succ_cons]
            exact h1
          · simp only [ComputeShaderTool.valuesAfterI, hp, if_false]
            exact h2

/-- A successful search over `_argv` from `start`: the new index lies behind the start,
holds the returned value, follows the first match at or after the start. -/
theorem findArgVal_spec (isArg : String → Bool) (argv : List String) (start j : Nat)
    (v : String) (h : App.findArgVal isArg argv start = some (j, v)) :
    start < j ∧ j < argv.length ∧ argv[j]? = some v ∧
      (∃ a, argv[j - 1]? = some a ∧ isArg a = true) ∧
      ∀ k : Nat, start ≤ k → k < j - 1 → ∀ b, argv[k]? = some b → isArg b = false := by
  obtain ⟨k, a, hj, hk, ha, hv, hfirst⟩ := findArgFrom_spec isArg _ _ _ _ h
  rw [List.getElem?_drop] at hk hv
  have hlen : start + (k + 1) < argv.length := by
    obtain ⟨hlt, _⟩ := List.getElem?_eq_some.mp hv
    exact hlt
  refine ⟨by omega, by omega, ?_, ⟨a, ?_, ha⟩, ?_⟩
  · rw [hj]
    exact hv
  · have : j - 1 = start + k := by omega
    rw [this]
    exact hk
  · intro k2 h1 h2 b hb
    have e : k2 = start + (k2 - start) := by omega
    rw [e] at hb
    exact hfirst (k2 - start) (by omega) b (by rw [List.getElem?_drop]; exact hb)

/-- A call `getArgVal("-I", "", &index)` that returns a non-empty string has moved the
index forward, when the registered `-I` argument has an empty default value. -/
theorem getArgVal_progress (arguments : List Argument) (argv : List String) (index : Nat)
    (hdef : ∀ a, arguments.find?
        (fun a => decide (a.longArg = "-I") || decide (a.shortArg = "-I")) = some a →
      a.defaultValue = "")
    (hne : (App.getArgVal arguments argv "-I" "" (some index)).value ≠ "") :
    max 1 index < (App.getArgVal arguments argv "-I" "" (some index)).argi ∧
      (App.getArgVal arguments argv "-I" "" (some index)).argi < argv.length := by
  unfold App.getArgVal at hne ⊢
  simp only at hne ⊢
  cases h1 : App.findArgVal (fun s => decide ("-I" = s)) argv (max 1 index) with
  | some r =>
    obtain ⟨j, v⟩ := r
    obtain ⟨k1, k2, _⟩ := findArgVal_spec _ _ _ _ _ h1
    simp only [h1, Option.isSome_some, if_true]
    exact ⟨k1, k2⟩
  | none =>
    simp only [h1, ne_eq, not_true_eq_false, if_false] at hne ⊢
    cases h2 : arguments.find?
        (fun a => decide (a.longArg = "-I") || decide (a.shortArg = "-I")) with
    | none =>
      simp [h2] at hne
    | some a =>
      simp only [h2] at hne ⊢
      cases h3 : App.findArgVal (fun s => decide (a.longArg = s) || decide (a.shortArg = s))
          argv (max 1 index) with
      | some r =>
        obtain ⟨j, v⟩ := r
        obtain ⟨k1, k2, _⟩ := findArgVal_spec _ _ _ _ _ h3
        simp only [h3, Option.isSome_some, if_true]
        exact ⟨k1, k2⟩
      | none =>
        exfalso
        simp only [h3] at hne
        have hd := hdef a h2
        split_ifs at hne <;> exact hne hd

/-- More fuel does not change the result of the include loop. -/
theorem includeLoop_mono (arguments : List Argument) (argv : List String) (fuel : Nat) :
    ∀ (index : Nat) (dirs out : List String),
      ComputeShaderTool.includeLoop arguments argv fuel index dirs = some out →
      ∀ e : Nat, ComputeShaderTool.includeLoop arguments argv (fuel + e) index dirs
        = some out := by
  induction fuel with
  | zero =>
    intro index dirs out h
    simp [ComputeShaderTool.includeLoop] at h
  | succ fuel ih =>
    intro index dirs out h e
    have he : fuel + 1 + e = (fuel + e) + 1 := by omega
    rw [he]
    simp only [ComputeShaderTool.includeLoop] at h ⊢
    split_ifs at h ⊢ with hc
    · exact h
    · exact ih _ _ _ h e

/-- The include loop ends when the registered `-I` argument has an empty default value. -/
theorem includeLoop_terminates (arguments : List Argument) (argv : List String)
    (hdef : ∀ a, arguments.find?
        (fun a => decide (a.longArg = "-I") || decide (a.shortArg = "-I")) = some a →
      a.defaultValue = "") (fuel : Nat) :
    ∀ (index : Nat) (dirs : List String), argv.length - max 1 index < fuel →
      ∃ out, ComputeShaderTool.includeLoop arguments argv fuel index dirs = some out := by
  induction fuel with
  | zero =>
    intro index dirs h
    omega
  | succ fuel ih =>
    intro index dirs h
    by_cases hv : (App.getArgVal arguments argv "-I" "" (some index)).value = ""
    · exact ⟨dirs, by simp [ComputeShaderTool.includeLoop, hv]⟩
    · obtain ⟨h1, h2⟩ := getArgVal_progress arguments argv index hdef hv
      obtain ⟨out, hout⟩ := ih (App.getArgVal arguments argv "-I" "" (some index)).argi
        (dirs ++ [(App.getArgVal arguments argv "-I" "" (some index)).value]) (by omega)
      exact ⟨out, by simp only [ComputeShaderTool.includeLoop, hv, if_false]; exact hout⟩

/-- The call `getArgVal("-I", "", &index)` in terms of the search for `-I`, when the
registered `-I` argument has an empty default value and no other name on the command
line. -/
theorem getArgVal_I (arguments : List Argument) (argv : List String) (index : Nat)
    (halias : ∀ a, arguments.find?
        (fun a => decide (a.longArg = "-I") || decide (a.shortArg = "-I")) = some a →
      a.defaultValue = "" ∧ ∀ s ∈ argv.tail, (a.longArg = s ∨ a.shortArg = s) → s = "-I") :
    match App.findArgVal (fun s => decide ("-I" = s)) argv (max 1 index) with
    | some (j, v) =>
      (App.getArgVal arguments argv "-I" "" (some index)).value = v ∧
        (App.getArgVal arguments argv "-I" "" (some index)).argi = j
    | none => (App.getArgVal arguments argv "-I" "" (some index)).value = "" := by
  unfold App.getArgVal
  simp only
  cases h1 : App.findArgVal (fun s => decide ("-I" = s)) argv (max 1 index) with
  | some r =>
    obtain ⟨j, v⟩ := r
    simp
  | none =>
    simp only [ne_eq, not_true_eq_false, if_false]
    cases h2 : arguments.find?
        (fun a => decide (a.longArg = "-I") || decide (a.shortArg = "-I")) with
    | none => rfl
    | some a =>
      obtain ⟨hd, hnames⟩ := halias a h2
      have hfound := List.find?_some h2
      simp only [Bool.or_eq_true, decide_eq_true_eq] at hfound
      have hsame : App.findArgVal (fun s => decide (a.longArg = s) || decide (a.shortArg = s))
          argv (max 1 index) = App.findArgVal (fun s => decide ("-I" = s)) argv (max 1 index) := by
        unfold App.findArgVal
        apply findArgFrom_congr
        intro s hs
        have hmem : s ∈ argv.tail := by
          have e : argv.drop (max 1 index) = argv.tail.drop (max 1 index - 1) := by
            have e1 : max 1 index = (max 1 index - 1) + 1 := by omega
            conv_lhs => rw [e1]
            rw [← List.drop_one, List.drop_drop]
            congr 1
            omega
          rw [e] at hs
          exact List.mem_of_mem_drop hs
        by_cases hI : "-I" = s
        · subst hI
          simp only [decide_True]
          rcases hfound with h | h <;> simp [h]
        · have hn : ¬ (a.longArg = s ∨ a.shortArg = s) := fun h => hI (hnames s hmem h).symm
          simp only [not_or] at hn
          simp [hI, hn.1, hn.2]
      simp only [hsame, h1, hd]
      split_ifs <;> rfl

/-- The include loop collects the values after the `-I` occurrences from the start index
on, when no such value is empty and the registered `-I` argument has an empty default
value and no other name on the command line. -/
theorem includeLoop_values (arguments : List Argument) (argv : List String)
    (halias : ∀ a, arguments.find?
        (fun a => decide (a.longArg = "-I") || decide (a.shortArg = "-I")) = some a →
      a.defaultValue = "" ∧ ∀ s ∈ argv.tail, (a.longArg = s ∨ a.shortArg = s) → s = "-I")
    (hempty : ∀ k : Nat, 1 ≤ k → argv[k]? = some "-I" → argv[k + 1]? ≠ some "")
    (fuel : Nat) :
    ∀ (index : Nat) (dirs : List String), argv.length - max 1 index < fuel →
      ComputeShaderTool.includeLoop arguments argv fuel index dirs
        = some (dirs ++ ComputeShaderTool.valuesAfterI (argv.drop (max 1 index))) := by
  induction fuel with
  | zero =>
    intro index dirs h
    omega
  | succ fuel ih =>
    intro index dirs h
    have hg := getArgVal_I arguments argv index halias
    have hvals := findArgFrom_valuesAfterI (argv.drop (max 1 index)) (max 1 index)
    cases h1 : App.findArgVal (fun s => decide ("-I" = s)) argv (max 1 index) with
    | none =>
      rw [h1] at hg
      simp only at hg
      have h1b : App.findArgFrom (fun s => decide ("-I" = s)) (max 1 index)
          (argv.drop (max 1 index)) = none := h1
      rw [h1b] at hvals
      simp only at hvals
      simp [ComputeShaderTool.includeLoop, hg, hvals]
    | some r =>
      obtain ⟨j, v⟩ := r
      rw [h1] at hg
      obtain ⟨hval, hargi⟩ := hg
      have h1b : App.findArgFrom (fun s => decide ("-I" = s)) (max 1 index)
          (argv.drop (max 1 index)) = some (j, v) := h1
      rw [h1b] at hvals
      obtain ⟨rest, hdrop, hv2⟩ := hvals
      obtain ⟨k1, k2, k3, ⟨a, ka, kp⟩, _⟩ := findArgVal_spec _ _ _ _ _ h1
      have haI : a = "-I" := by
        simp only [decide_eq_true_eq] at kp
        exact kp.symm
      have hvne : v ≠ "" := by
        intro hv
        have := hempty (j - 1) (by omega) (by rw [ka, haI])
        apply this
        have e : j - 1 + 1 = j := by omega
        rw [e, k3, hv]
      have hdropj : argv.drop j = v :: rest := by
        rw [List.drop_drop] at hdrop
        have e : max 1 index + (j - max 1 index) = j := by omega
        rw [e] at hdrop
        exact hdrop
      have hmaxj : max 1 j = j := by omega
      have hrec := ih j (dirs ++ [v]) (by omega)
      rw [hmaxj, hdropj] at hrec
      simp only [ComputeShaderTool.includeLoop, hval, hvne, if_false, hargi, hrec, hv2]
      simp

/-- C22 (code at the failing input and in general): with the arguments registered by the
tool, the command line `computeshadertool "" x` has no `-I`, yet the include list is
`[".", "x"]`: the empty element matches the empty short name of the `-I` argument in the
second search of `App::getArgVal`; the same holds for any short name `sh` and the command
line `computeshadertool sh x`.  Apart from that the claim holds: the loop ends for every
command line; the include list is "." followed by the value after each `-I` occurrence
when no such value is empty and the registered `-I` argument has no other name on the
command line; and a successful search returns the value after the first match at or
after the start index and sets the index to the position of that value. -/
theorem C22_includeDirs_alias_match :
    (ComputeShaderTool.includeDirs ComputeShaderTool.registeredArgs
        ["computeshadertool", "", "x"] 3 = some [".", "x"] ∧
      ComputeShaderTool.valuesAfterI ["", "x"] = []) ∧
    (∀ sh : String, ComputeShaderTool.includeDirs [⟨"-I", sh, "", false⟩]
        ["computeshadertool", sh, "x"] 3 = some [".", "x"]) ∧
    (∀ (argv : List String) (extra : Nat), ∃ dirs : List String,
      ComputeShaderTool.includeDirs ComputeShaderTool.registeredArgs argv
        (argv.length + 1 + extra) = some dirs) ∧
    (∀ (arguments : List Argument) (argv : List String) (extra : Nat),
      (∀ a, arguments.find?
          (fun a => decide (a.longArg = "-I") || decide (a.shortArg = "-I")) = some a →
        a.defaultValue = "" ∧
          ∀ s ∈ argv.tail, (a.longArg = s ∨ a.shortArg = s) → s = "-I") →
      (∀ k : Nat, 1 ≤ k → argv[k]? = some "-I" → argv[k + 1]? ≠ some "") →
      ComputeShaderTool.includeDirs arguments argv (argv.length + 1 + extra)
        = some ("." :: ComputeShaderTool.valuesAfterI argv.tail)) ∧
    (∀ (arguments : List Argument) (argv : List String) (arg defaultVal : String)
        (index j : Nat) (v : String),
      App.findArgVal (fun s => decide (arg = s)) argv (max 1 index) = some (j, v) →
      App.getArgVal arguments argv arg defaultVal (some index) = ⟨v, j, false⟩ ∧
        max 1 index < j ∧ argv[j]? = some v ∧ argv[j - 1]? = some arg ∧
        ∀ k : Nat, max 1 index ≤ k → k < j - 1 → argv[k]? ≠ some arg) := by
  refine ⟨⟨by decide, by decide⟩, ?_, ?_, ?_, ?_⟩
  · intro sh
    by_cases h : "-I" = sh
    · subst h
      decide
    · have h2 : ¬ sh = "-I" := fun e => h e.symm
      have h3 : ¬ "-I" = "x" := by decide
      have h4 : ¬ "x" = "-I" := by decide
      simp [ComputeShaderTool.includeDirs, ComputeShaderTool.includeLoop, App.getArgVal,
        App.findArgVal, App.findArgFrom, h, h2, h3, h4]
  · intro argv extra
    have hdef : ∀ a, ComputeShaderTool.registeredArgs.find?
        (fun a => decide (a.longArg = "-I") || decide (a.shortArg = "-I")) = some a →
        a.defaultValue = "" := by
      intro a ha
      have hfind : ComputeShaderTool.registeredArgs.find?
          (fun a => decide (a.longArg = "-I") || decide (a.shortArg = "-I"))
          = some ⟨"-I", "", "", false⟩ := by decide
      rw [hfind] at ha
      simp only [Option.some.injEq] at ha
      rw [← ha]
    obtain ⟨out, hout⟩ := includeLoop_terminates ComputeShaderTool.registeredArgs argv hdef
      (argv.length + 1) 0 ["."] (by omega)
    exact ⟨out, includeLoop_mono _ _ _ _ _ _ hout extra⟩
  · intro arguments argv extra halias hempty
    have h := includeLoop_values arguments argv halias hempty (argv.length + 1) 0 ["."]
      (by omega)
    have hdrop : argv.drop (max 1 0) = argv.tail := by simp
    rw [hdrop] at h
    exact includeLoop_mono _ _ _ _ _ _ h extra
  · intro arguments argv arg defaultVal index j v h
    obtain ⟨k1, _, k3, ⟨a, ka, kp⟩, kfirst⟩ := findArgVal_spec _ _ _ _ _ h
    simp only [decide_eq_true_eq] at kp
    refine ⟨by simp [App.getArgVal, h], k1, k3, by rw [ka, kp], ?_⟩
    intro k h1 h2 hk
    have := kfirst k h1 h2 arg hk
    simp at this

/-- The loop of `getSource` entered at a level below 10 ends within `10 - level` passes;
the success flag is the conjunction of the flag on entry and the flags of the passes. -/
theorem sourceLoop_spec {S : Type} (handleIncludes : S → S × Bool)
    (containsInclude : S → Bool) (fuel : Nat) :
    ∀ (src : S) (level : Nat) (success : Bool) (calls : List S),
      level < 10 → 10 - level ≤ fuel →
      ∃ (out : S) (passes : List S),
        ComputeShaderTool.sourceLoop handleIncludes containsInclude fuel src level success calls
          = some (out, success && (passes.map (fun s => (handleIncludes s).2)).all id,
              calls ++ passes) ∧
        passes.length ≤ 10 - level ∧
        ((∀ s, containsInclude s = true) → passes.length = 10 - level) := by
  induction fuel with
  | zero =>
    intro src level success calls hl hf
    omega
  | succ fuel ih =>
    intro src level success calls hl hf
    by_cases hc : containsInclude src = true
    · by_cases h10 : level + 1 ≥ 10
      · refine ⟨(handleIncludes src).1, [src], ?_, by simp; omega, fun _ => by simp; omega⟩
        simp [ComputeShaderTool.sourceLoop, hc, h10]
      · obtain ⟨out, passes, h1, h2, h3⟩ := ih (handleIncludes src).1 (level + 1)
          (success && (handleIncludes src).2) (calls ++ [src]) (by omega) (by omega)
        refine ⟨out, src :: passes, ?_, by simp; omega, fun hall => by
          have := h3 hall
          simp
          omega⟩
        simp only [ComputeShaderTool.sourceLoop, hc, if_true, h10, if_false, h1]
        simp [Bool.and_assoc]
    · refine ⟨src, [], ?_, by simp, fun hall => absurd (hall src) hc⟩
      simp [ComputeShaderTool.sourceLoop, hc]

/-- C23: `ComputeShaderTool::getSource` terminates for every input, cyclic includes
included: with fuel for 10 evaluations of the loop condition (or more) it returns, and
the result does not depend on the extra fuel.  `util::handleIncludes` is called at most
11 times (once before the loop and in at most 10 passes; exactly 11 times when every
source still contains an include), and the returned success flag is the conjunction of
the success flags of all these calls. -/
theorem C23_getSource_terminates {S : Type} (handleIncludes : S → S × Bool)
    (containsInclude : S → Bool) (loaded : S) (extra : Nat) :
    ∃ (src : S) (success : Bool) (calls : List S),
      ComputeShaderTool.getSource handleIncludes containsInclude (10 + extra) loaded
        = some (src, success, calls) ∧
      ComputeShaderTool.getSource handleIncludes containsInclude 10 loaded
        = some (src, success, calls) ∧
      1 ≤ calls.length ∧ calls.length ≤ 11 ∧
      success = (calls.map (fun s => (handleIncludes s).2)).all id ∧
      ((∀ s, containsInclude s = true) → calls.length = 11) := by
  obtain ⟨out, passes, h1, h2, h3⟩ := sourceLoop_spec handleIncludes containsInclude
    (10 + extra) (handleIncludes loaded).1 0 (handleIncludes loaded).2 [loaded]
    (by omega) (by omega)
  obtain ⟨out0, passes0, k1, _, _⟩ := sourceLoop_spec handleIncludes containsInclude
    10 (handleIncludes loaded).1 0 (handleIncludes loaded).2 [loaded] (by omega) (by omega)
  have hsame : ComputeShaderTool.sourceLoop handleIncludes containsInclude 10
        (handleIncludes loaded).1 0 (handleIncludes loaded).2 [loaded]
      = ComputeShaderTool.sourceLoop handleIncludes containsInclude (10 + extra)
        (handleIncludes loaded).1 0 (handleIncludes loaded).2 [loaded] := by
    have mono : ∀ (fuel : Nat) (src : S) (level : Nat) (success : Bool) (calls : List S)
        (r : S × Bool × List S),
        ComputeShaderTool.sourceLoop handleIncludes containsInclude fuel src level success calls
          = some r →
        ∀ e : Nat, ComputeShaderTool.sourceLoop handleIncludes containsInclude (fuel + e) src
          level success calls = some r := by
      intro fuel
      induction fuel with
      | zero =>
        intro src level success calls r h
        simp [ComputeShaderTool.sourceLoop] at h
      | succ fuel ih =>
        intro src level success calls r h e
        have he : fuel + 1 + e = (fuel + e) + 1 := by omega
        rw [he]
        simp only [ComputeShaderTool.sourceLoop] at h ⊢
        split_ifs at h ⊢ with hc h10
        · exact h
        · exact ih _ _ _ _ r h e
        · exact h
    rw [k1]
    exact (mono 10 _ _ _ _ _ k1 extra).symm
  refine ⟨out, (handleIncludes loaded).2 && (passes.map (fun s => (handleIncludes s).2)).all id,
    [loaded] ++ passes, ?_, ?_, ?_, ?_, ?_, ?_⟩
  · exact h1
  · unfold ComputeShaderTool.getSource
    simp only
    rw [hsame]
    exact h1
  · simp
  · simp only [List.length_append, List.length_singleton]
    omega
  · simp
  · intro hall
    have := h3 hall
    simp only [List.length_append, List.length_singleton]
    omega
